import Mathlib

/-!
Verification of the document ingestion and retrieval pipeline of the
trouble-ticketing application.

The JavaScript sources `server/services/documentService.js`,
`server/services/vectorService.js` and `server/middleware/encryption.js`
are shallowly embedded below: strings are modelled as `List Char` (for the
chunkers) or `String` (for the vector store), JavaScript numbers as `ℕ`,
`ℤ` or `ℚ`, `null`/`undefined` as `Option`, and the file-system /
network effects are made explicit (the store is passed as a value, the
embedding provider is a function parameter, persistence is a recorded
flag).  JavaScript-specific behaviours that the source relies on are kept:
`x || d` treats `0`, `""`, `null` and `undefined` as falsy, `Map.set` on an
existing key updates in place without changing insertion order, and
`Array.prototype.sort` is a stable sort.
-/

namespace DocSvc

/-- The set of characters matched by JavaScript `\s` (and trimmed by
`String.prototype.trim`): ASCII whitespace plus the common Unicode space
characters.  Only `' '` and `'\n'` occur in the inputs handled here, but the
full set is kept for fidelity. -/
def isJsWs (c : Char) : Bool :=
  c = ' ' || c = '\t' || c = '\n' || c = '\r' || c = '\x0b' || c = '\x0c' ||
  c = '\u00A0' || c = '\uFEFF' || c = '\u2028' || c = '\u2029' || c = '\u3000'

/-- Line terminators for the purpose of JavaScript `.` (which does not match
them) and multiline `$`/`^` anchors. -/
def isLineTerm (c : Char) : Bool :=
  c = '\n' || c = '\r' || c = '\u2028' || c = '\u2029'

/-- Drop leading JS whitespace (left half of `trim`). -/
def ltrimWs (l : List Char) : List Char := l.dropWhile isJsWs

/-- Drop trailing JS whitespace (right half of `trim`). -/
def rtrimWs (l : List Char) : List Char := (l.reverse.dropWhile isJsWs).reverse

/-- JavaScript `String.prototype.trim`. -/
def jsTrim (l : List Char) : List Char := rtrimWs (ltrimWs l)

/-- `estimateTokens`: `Math.ceil(text.length / 4)`. -/
def estimateTokens (l : List Char) : ℕ := (l.length + 3) / 4

/-- JavaScript `a || d` for an optional numeric setting: `undefined`, `null`
and `0` are falsy and select the default. -/
def jsOrNat (o : Option ℕ) (d : ℕ) : ℕ :=
  match o with
  | none => d
  | some n => if n = 0 then d else n

/-- JavaScript `a || d` for an optional string: `undefined`, `null` and `""`
are falsy and select the default. -/
def jsOrStr (o : Option String) (d : String) : String :=
  match o with
  | none => d
  | some s => if s = "" then d else s

/-! ### `cleanText` (documentService.js lines 88-101)

Each `.replace` pass of the source is one scanner below, applied in the
source's order:
1. `\r\n` → `\n` and `\r` → `\n`;
2. `\n{3,}` → `\n\n`;
3. runs of horizontal whitespace (`[^\S\n]+`) → one space;
4. ` *\n *` → `\n`;
5. `.trim()`. -/

/-- Pass 1: normalize `\r\n` and `\r` to `\n`. -/
def normNL : List Char → List Char
  | [] => []
  | '\r' :: '\n' :: rest => '\n' :: normNL rest
  | '\r' :: rest => '\n' :: normNL rest
  | c :: rest => c :: normNL rest

/-- Pass 2 worker: `n` counts the newline run seen so far; a finished run is
emitted as `min n 2` newlines. -/
def collapseNLGo : ℕ → List Char → List Char
  | n, [] => List.replicate (min n 2) '\n'
  | n, c :: rest =>
    if c = '\n' then collapseNLGo (n + 1) rest
    else List.replicate (min n 2) '\n' ++ c :: collapseNLGo 0 rest

/-- Pass 2: collapse runs of three or more newlines to exactly two. -/
def collapseNL (l : List Char) : List Char := collapseNLGo 0 l

/-- Horizontal whitespace: JS `[^\S\n]`, i.e. whitespace other than `\n`. -/
def isHW (c : Char) : Bool := isJsWs c && !(c = '\n')

/-- Pass 3 worker: `pend` records whether a horizontal-whitespace run is
open; a finished run is emitted as one space. -/
def collapseHWGo : Bool → List Char → List Char
  | pend, [] => if pend then [' '] else []
  | pend, c :: rest =>
    if isHW c then collapseHWGo true rest
    else if pend then ' ' :: c :: collapseHWGo false rest
    else c :: collapseHWGo false rest

/-- Pass 3: collapse each run of horizontal whitespace to one space, leaving
newlines alone. -/
def collapseHW (l : List Char) : List Char := collapseHWGo false l

/-- Pass 4 worker: ` *\n *` → `\n`.  `pendSp` counts spaces not yet known to
precede a newline; `skip` is set just after a newline was emitted, dropping
the spaces that follow it. -/
def stripNLGo : ℕ → Bool → List Char → List Char
  | pendSp, _, [] => List.replicate pendSp ' '
  | pendSp, skip, c :: rest =>
    if c = ' ' then
      if skip then stripNLGo 0 true rest
      else stripNLGo (pendSp + 1) false rest
    else if c = '\n' then '\n' :: stripNLGo 0 true rest
    else List.replicate pendSp ' ' ++ c :: stripNLGo 0 false rest

/-- Pass 4: remove spaces adjacent to newlines. -/
def stripNL (l : List Char) : List Char := stripNLGo 0 false l

/-- `cleanText` (documentService.js lines 88-101). -/
def cleanText (l : List Char) : List Char :=
  jsTrim (stripNL (collapseHW (collapseNL (normNL l))))

/-! ### Splitting helpers -/

/-- JavaScript `"…".split(' ')` : every single space is a separator; the
result is never empty and its pieces contain no spaces. -/
def splitOnSpaceGo (cur : List Char) : List Char → List (List Char)
  | [] => [cur.reverse]
  | c :: rest =>
    if c = ' ' then cur.reverse :: splitOnSpaceGo [] rest
    else splitOnSpaceGo (c :: cur) rest

def splitOnSpace (l : List Char) : List (List Char) := splitOnSpaceGo [] l

/-- JavaScript `arr.join(' ')`. -/
def joinSpace : List (List Char) → List Char
  | [] => []
  | [w] => w
  | w :: ws => w ++ ' ' :: joinSpace ws

/-- JavaScript `text.split(/\n\n+/)` : maximal runs of two or more newlines
separate the pieces; a single newline stays inside a piece.  `acc` is the
current piece (reversed), `nl` the pending newline run. -/
def splitParasGo (acc : List Char) (nl : ℕ) : List Char → List (List Char)
  | [] =>
    if 2 ≤ nl then [acc.reverse, []]
    else [(List.replicate nl '\n' ++ acc).reverse]
  | c :: rest =>
    if c = '\n' then splitParasGo acc (nl + 1) rest
    else if 2 ≤ nl then acc.reverse :: splitParasGo [c] 0 rest
    else splitParasGo (c :: List.replicate nl '\n' ++ acc) 0 rest

def splitParas (l : List Char) : List (List Char) := splitParasGo [] 0 l

/-! ### Chunking options

One options record serves all three chunkers, like the single `options`
object of the source.  `none` models an absent property. -/

structure ChunkOpts where
  chunkSize : Option ℕ := none
  overlap : Option ℕ := none
  minContentLength : Option ℕ := none
deriving DecidableEq

/-! ### `chunkByPages` (documentService.js lines 264-292) -/

structure PageText where
  page : ℕ
  text : List Char
deriving DecidableEq

structure PChunk where
  content : List Char
  index : ℕ
  tokenCount : ℕ
  pageNumber : ℕ
  startPage : ℕ
  endPage : ℕ
deriving DecidableEq

def chunkByPagesGo (minLen : ℕ) (idx : ℕ) : List PageText → List PChunk
  | [] => []
  | p :: rest =>
    let content := cleanText p.text
    if content.length < minLen then chunkByPagesGo minLen idx rest
    else
      { content := content, index := idx, tokenCount := estimateTokens content,
        pageNumber := p.page, startPage := p.page, endPage := p.page } ::
        chunkByPagesGo minLen (idx + 1) rest

/-- `chunkByPages`: one chunk per page with enough cleaned content
(`options.minContentLength || 50`), skipped pages produce nothing and do not
advance the chunk index. -/
def chunkByPages (pageTexts : List PageText) (opts : ChunkOpts) : List PChunk :=
  chunkByPagesGo (jsOrNat opts.minContentLength 50) 0 pageTexts

/-! ### `chunkText` (documentService.js lines 118-176)

The model additionally records, with each chunk closed inside the loop, the
overlap string that was carried into the next buffer (`overlapWords.join(' ')`);
`chunkText` itself discards that trace component. -/

structure TChunk where
  content : List Char
  index : ℕ
  tokenCount : ℕ
deriving DecidableEq

/-- The overlap collection loop (lines 146-153): walk the words from the end,
keeping whole words until at least `overlapChars` characters are covered. -/
def overlapTakeGo (oc : ℕ) (acc : List (List Char)) (len : ℕ) :
    List (List Char) → List (List Char)
  | [] => acc
  | w :: ws =>
    if len < oc then overlapTakeGo oc (w :: acc) (len + w.length + 1) ws
    else acc

def overlapTake (oc : ℕ) (words : List (List Char)) : List (List Char) :=
  overlapTakeGo oc [] 0 words.reverse

structure TWState where
  chunks : List (TChunk × List Char)
  buf : List Char
  idx : ℕ

/-- The body of the paragraph loop (lines 135-164). -/
def twStep (targetChars overlapChars : ℕ) (st : TWState) (para : List Char) :
    TWState :=
  if targetChars < st.buf.length + para.length ∧ 0 < st.buf.length then
    let ov := joinSpace (overlapTake overlapChars (splitOnSpace st.buf))
    let seed := if 0 < overlapChars then ov ++ [' '] else []
    { chunks := st.chunks ++
        [({ content := jsTrim st.buf, index := st.idx,
            tokenCount := estimateTokens st.buf },
          if 0 < overlapChars then ov else [])],
      buf := seed ++ para ++ ['\n', '\n'],
      idx := st.idx + 1 }
  else
    { st with buf := st.buf ++ para ++ ['\n', '\n'] }

/-- `chunkText` with the carried-overlap trace.  The final flush (lines
167-173) records an empty trace component, which no theorem consults. -/
def chunkTextTrace (text : List Char) (opts : ChunkOpts) :
    List (TChunk × List Char) :=
  let targetChars := jsOrNat opts.chunkSize 500 * 4
  let overlapChars := jsOrNat opts.overlap 50 * 4
  let cleanedText := cleanText text
  let paragraphs := splitParas cleanedText
  let st := paragraphs.foldl (twStep targetChars overlapChars) ⟨[], [], 0⟩
  if 0 < (jsTrim st.buf).length then
    st.chunks ++
      [({ content := jsTrim st.buf, index := st.idx,
          tokenCount := estimateTokens st.buf }, [])]
  else st.chunks

def chunkText (text : List Char) (opts : ChunkOpts) : List TChunk :=
  (chunkTextTrace text opts).map Prod.fst

/-! ### `chunkByHeaders` (documentService.js lines 310-386)

The global regex `/^(#{1,6})\s+(.+)$/gm` is embedded as a scanner: at each
position where `^` can match, try 1-6 hashes, then `\s+` (greedy, giving
back characters when `(.+)` would otherwise be empty), then `(.+)` up to the
line end. -/

structure HeaderMatch where
  index : ℕ
  level : ℕ
  headerText : List Char
  endIndex : ℕ
deriving DecidableEq

/-- Largest split `k ∈ [1, w]` of the whitespace run such that the character
at position `k` of `combined` exists and is not a line terminator (the
backtracking of greedy `\s+` against `(.+)`). -/
def bestWsSplit (combined : List Char) : ℕ → Option ℕ
  | 0 => none
  | k + 1 =>
    match combined.drop (k + 1) with
    | c :: _ => if isLineTerm c then bestWsSplit combined k else some (k + 1)
    | [] => bestWsSplit combined k

/-- Try the header regex with the match starting at the head of `cs`;
returns `(level, raw capture, full match length)`. -/
def tryHeaderAt (cs : List Char) : Option (ℕ × List Char × ℕ) :=
  let run := (cs.takeWhile (· = '#')).length
  if run = 0 ∨ 6 < run then none
  else
    let afterHash := cs.drop run
    let w := (afterHash.takeWhile isJsWs).length
    if w = 0 then none
    else
      match bestWsSplit afterHash w with
      | none => none
      | some k =>
        let capture := (afterHash.drop k).takeWhile (fun c => !isLineTerm c)
        some (run, capture, run + k + capture.length)

/-- `headerRegex.exec` loop (lines 322-331): scan left to right, matching
only at positions where the multiline `^` holds, resuming after each match. -/
def findHeadersGo (fuel : ℕ) (offset : ℕ) (atLineStart : Bool)
    (cs : List Char) : List HeaderMatch :=
  match fuel with
  | 0 => []
  | fuel + 1 =>
    match cs with
    | [] => []
    | c :: rest =>
      if atLineStart then
        match tryHeaderAt cs with
        | some (lvl, cap, flen) =>
          { index := offset, level := lvl, headerText := jsTrim cap,
            endIndex := offset + flen } ::
            findHeadersGo fuel (offset + flen) false (cs.drop flen)
        | none => findHeadersGo fuel (offset + 1) (isLineTerm c) rest
      else findHeadersGo fuel (offset + 1) (isLineTerm c) rest

def findHeaders (cs : List Char) : List HeaderMatch :=
  findHeadersGo (cs.length + 1) 0 true cs

structure HSection where
  header : List Char
  headerLevel : ℕ
  content : List Char
deriving DecidableEq

structure HChunk where
  content : List Char
  index : ℕ
  tokenCount : ℕ
  header : List Char
  sectionIndex : ℕ
  pageNumber : Option ℕ
  startPage : Option ℕ
  endPage : Option ℕ
deriving DecidableEq

/-- The per-header section loop (lines 334-350): content runs from the end
of this header to the start of the next (or the end of the text), and is
kept only when, after trimming, it reaches `minContentLength`. -/
def sectionsFrom (text : List Char) (minLen : ℕ) : List HeaderMatch → List HSection
  | [] => []
  | m :: rest =>
    let contentEnd := match rest with
      | [] => text.length
      | m2 :: _ => m2.index
    let content := jsTrim ((text.take contentEnd).drop m.endIndex)
    if minLen ≤ content.length then
      { header := m.headerText, headerLevel := m.level, content := content } ::
        sectionsFrom text minLen rest
    else sectionsFrom text minLen rest

/-- `chunkByHeaders` (documentService.js lines 310-386). -/
def chunkByHeaders (text : List Char) (opts : ChunkOpts) : List HChunk :=
  let minContentLength := jsOrNat opts.minContentLength 50
  let hms := findHeaders text
  let base := sectionsFrom text minContentLength hms
  let sections : List HSection :=
    match hms with
    | [] =>
      let cleanedText := cleanText text
      if minContentLength ≤ cleanedText.length then
        [{ header := "Document".toList, headerLevel := 1, content := cleanedText }]
      else []
    | m :: _ =>
      if 0 < m.index then
        let preamble := jsTrim (text.take m.index)
        if minContentLength ≤ preamble.length then
          { header := "Introduction".toList, headerLevel := 1,
            content := preamble } :: base
        else base
      else base
  sections.mapIdx fun index sec =>
    { content := ('#' :: '#' :: ' ' :: sec.header) ++ '\n' :: '\n' :: sec.content,
      index := index, tokenCount := estimateTokens sec.content,
      header := sec.header, sectionIndex := index + 1,
      pageNumber := none, startPage := none, endPage := none }

end DocSvc

namespace DocSvc

theorem chunkByPagesGo_spec (m : ℕ) (pts : List PageText) : ∀ (idx : ℕ),
    (chunkByPagesGo m idx pts).map PChunk.content =
      (pts.filter fun p => decide (m ≤ (cleanText p.text).length)).map
        (fun p => cleanText p.text) ∧
    (chunkByPagesGo m idx pts).map PChunk.index =
      List.range' idx (chunkByPagesGo m idx pts).length ∧
    (chunkByPagesGo m idx pts).map PChunk.tokenCount =
      (pts.filter fun p => decide (m ≤ (cleanText p.text).length)).map
        (fun p => estimateTokens (cleanText p.text)) ∧
    (chunkByPagesGo m idx pts).map PChunk.pageNumber =
      (pts.filter fun p => decide (m ≤ (cleanText p.text).length)).map
        PageText.page ∧
    ∀ c ∈ chunkByPagesGo m idx pts,
      c.startPage = c.pageNumber ∧ c.endPage = c.pageNumber := by
  induction pts with
  | nil => intro idx; simp [chunkByPagesGo]
  | cons p rest ih =>
    intro idx
    by_cases h : (cleanText p.text).length < m
    · have hd : decide (m ≤ (cleanText p.text).length) = false := by
        simpa using Nat.not_le.mpr h
      simp only [chunkByPagesGo, if_pos h, List.filter_cons, hd,
        Bool.false_eq_true, if_false]
      exact ih idx
    · have hd : decide (m ≤ (cleanText p.text).length) = true := by
        simpa using Nat.not_lt.mp h
      obtain ⟨ih1, ih2, ih3, ih4, ih5⟩ := ih (idx + 1)
      refine ⟨?_, ?_, ?_, ?_, ?_⟩ <;>
        simp only [chunkByPagesGo, if_neg h, List.filter_cons, hd, if_true,
          List.map_cons, List.length_cons, List.range'_succ, List.mem_cons]
      · exact congrArg _ ih1
      · exact congrArg _ ih2
      · exact congrArg _ ih3
      · exact congrArg _ ih4
      · rintro c (rfl | hc)
        · exact ⟨rfl, rfl⟩
        · exact ih5 c hc

end DocSvc

open DocSvc in
/-- C6: for every list of page texts, `chunkByPages` emits exactly one chunk
for each page whose cleaned text has length at least the minimum content
threshold (`options.minContentLength || 50`) and none for any other page, in
page order with chunk indices sequential from 0, and every emitted chunk has
`pageNumber = startPage = endPage` equal to that page's number. -/
theorem C6_chunkByPages_one_chunk_per_qualifying_page
    (pts : List PageText) (opts : ChunkOpts) :
    (chunkByPages pts opts).map PChunk.content =
      (pts.filter fun p =>
        decide (jsOrNat opts.minContentLength 50 ≤ (cleanText p.text).length)).map
        (fun p => cleanText p.text) ∧
    (chunkByPages pts opts).map PChunk.index =
      List.range (chunkByPages pts opts).length ∧
    (chunkByPages pts opts).map PChunk.tokenCount =
      (pts.filter fun p =>
        decide (jsOrNat opts.minContentLength 50 ≤ (cleanText p.text).length)).map
        (fun p => estimateTokens (cleanText p.text)) ∧
    (chunkByPages pts opts).map PChunk.pageNumber =
      (pts.filter fun p =>
        decide (jsOrNat opts.minContentLength 50 ≤ (cleanText p.text).length)).map
        PageText.page ∧
    ∀ c ∈ chunkByPages pts opts,
      c.startPage = c.pageNumber ∧ c.endPage = c.pageNumber := by
  have h := chunkByPagesGo_spec (jsOrNat opts.minContentLength 50) pts 0
  simpa [chunkByPages, List.range_eq_range'] using h

open DocSvc in
/-- C2, counterexample: on the Markdown input `"# A\nfoo\n\n# B\nbar"` with
default options, `chunkByHeaders` does not return 2 chunks (each section's
body is 3 characters, below the default 50-character minimum, so it returns
none). -/
theorem C2_counterexample_default_options_yields_no_chunks :
    ¬ ((chunkByHeaders ("# A\nfoo\n\n# B\nbar".toList) {}).length = 2) := by
  decide

open DocSvc in
/-- C2, amended: on `"# A\nfoo\n\n# B\nbar"`, header-delimited chunking with
default options returns 0 chunks, because each section's trimmed body
(`"foo"`, `"bar"`) is shorter than the default 50-character minimum content
length applied to every section; with `minContentLength` lowered to 3 it
returns exactly 2 chunks with headers `"A"` and `"B"`, 1-based
`sectionIndex` 1 and 2, and `pageNumber` null for both. -/
theorem C2_amended_header_chunking_scenario :
    chunkByHeaders ("# A\nfoo\n\n# B\nbar".toList) {} = [] ∧
    ((chunkByHeaders ("# A\nfoo\n\n# B\nbar".toList)
        { minContentLength := some 3 }).length = 2 ∧
      (chunkByHeaders ("# A\nfoo\n\n# B\nbar".toList)
        { minContentLength := some 3 }).map HChunk.header =
        ["A".toList, "B".toList] ∧
      (chunkByHeaders ("# A\nfoo\n\n# B\nbar".toList)
        { minContentLength := some 3 }).map HChunk.sectionIndex = [1, 2] ∧
      (chunkByHeaders ("# A\nfoo\n\n# B\nbar".toList)
        { minContentLength := some 3 }).map HChunk.pageNumber = [none, none]) := by
  decide

namespace VecSvc

/-! ## `vectorService.js`

Embeddings are `List ℚ` (JavaScript float arrays modelled over the
rationals); `Math.sqrt` is an abstract parameter `sqrtf`, which no theorem
below depends on.  The persisted store `{chunks, provider, model}` is passed
and returned explicitly; the settings store, the environment and `decrypt`
are function parameters. -/

abbrev Emb := List ℚ

/-- The stored metadata of one chunk record (vectorService.js lines
350-368).  `tokenCount` is copied without a default and may be absent;
`imagePath`/`imageFilename` exist only on image records. -/
structure RecMeta where
  type : String
  docId : String
  chunkIndex : ℕ
  tokenCount : Option ℕ
  source : String
  numPages : ℕ
  application : String
  pageNumber : ℕ
  startPage : ℕ
  endPage : ℕ
  imagePath : Option String
  imageFilename : Option String
deriving DecidableEq

structure Record where
  id : String
  content : String
  embedding : Emb
  metadata : RecMeta
deriving DecidableEq

structure Store where
  chunks : List Record
  provider : Option String
  model : Option String
deriving DecidableEq

/-- The shape of the chunk objects handed to `addChunks` by the ingestion
callers: optional fields model properties that may be absent on the
JavaScript object. -/
structure InChunk where
  content : String
  docId : String
  index : ℕ
  tokenCount : Option ℕ
  source : Option String
  numPages : Option ℕ
  application : Option String
  pageNumber : Option ℕ
  startPage : Option ℕ
  endPage : Option ℕ
  imagePath : Option String
  imageFilename : Option String
deriving DecidableEq

/-- The derived record id (lines 340-341):
`docId ++ "_" ++ (image ? "img_" : "chunk_") ++ index`. -/
def chunkId (chunkType : String) (c : InChunk) : String :=
  c.docId ++ "_" ++ (if chunkType = "image" then "img_" else "chunk_") ++
    toString c.index

/-- Build the stored record for one chunk (lines 346-369).  JavaScript
`x || 0` / `x || ''` defaults collapse `undefined`/`null` (and falsy `0`/`""`,
which these defaults map to themselves) to the default. -/
def mkRecord (chunkType : String) (c : InChunk) (e : Emb) : Record :=
  { id := chunkId chunkType c,
    content := c.content,
    embedding := e,
    metadata :=
      { type := chunkType,
        docId := c.docId,
        chunkIndex := c.index,
        tokenCount := c.tokenCount,
        source := c.source.getD "",
        numPages := c.numPages.getD 0,
        application := c.application.getD "",
        pageNumber := c.pageNumber.getD 0,
        startPage := c.startPage.getD 0,
        endPage := c.endPage.getD 0,
        imagePath := if chunkType = "image" then some (c.imagePath.getD "") else none,
        imageFilename :=
          if chunkType = "image" then some (c.imageFilename.getD "") else none } }

/-- The insertion loop of `addChunks` (lines 338-372): for each chunk in
order, remove any existing record with the same derived id, then append the
new record.  The embeddings list is consumed in step with the chunks; a
missing embedding (`embeddings[i]` past the end, `undefined` in JavaScript)
is modelled as the empty vector. -/
def insertChunks (chunkType : String) (recs : List Record) :
    List InChunk → List Emb → List Record
  | [], _ => recs
  | c :: cs, e :: es =>
    insertChunks chunkType
      ((recs.filter fun r => !(r.id = chunkId chunkType c : Bool)) ++
        [mkRecord chunkType c e]) cs es
  | c :: cs, [] =>
    insertChunks chunkType
      ((recs.filter fun r => !(r.id = chunkId chunkType c : Bool)) ++
        [mkRecord chunkType c []]) cs []

structure AddResult where
  success : Bool
  count : ℕ
deriving DecidableEq

/-- The observable outcome of one `addChunks` call: its return value, the
resulting store, whether `generateEmbeddings` was invoked, and whether
`saveVectorStore` rewrote the persisted file. -/
structure AddOutcome where
  result : AddResult
  store : Store
  embedCalled : Bool
  saved : Bool
deriving DecidableEq

/-- `addChunks` (vectorService.js lines 324-382).  `cfg` is the
`(provider, model)` of the resolved embedding configuration, and `es` the
embeddings returned by the provider for `chunks.map (·.content)`.  With an
empty chunk list the function returns `{success: true, count: 0}` before
embedding, mutating or saving anything. -/
def addChunks (s : Store) (chunks : List InChunk) (es : List Emb)
    (chunkType : String) (cfg : String × Option String) : AddOutcome :=
  if chunks.length = 0 then
    { result := { success := true, count := 0 }, store := s,
      embedCalled := false, saved := false }
  else
    { result := { success := true, count := chunks.length },
      store :=
        { chunks := insertChunks chunkType s.chunks chunks es,
          provider := some cfg.1, model := cfg.2 },
      embedCalled := true, saved := true }

/-- `cosineSimilarity` (vectorService.js lines 290-307): on a length
mismatch it returns 0 without touching either vector; otherwise
`dot(a,b) / (sqrt(dot(a,a)) * sqrt(dot(b,b)))`. -/
def cosineSimilarity (sqrtf : ℚ → ℚ) (a b : Emb) : ℚ :=
  if a.length ≠ b.length then 0
  else
    (List.zipWith (· * ·) a b).sum /
      (sqrtf (List.zipWith (· * ·) a a).sum * sqrtf (List.zipWith (· * ·) b b).sum)

structure SearchOpts where
  limit : Option ℕ := none
  application : Option String := none
  docId : Option String := none
deriving DecidableEq

structure SimRow where
  id : String
  content : String
  metadata : RecMeta
  similarity : ℚ
deriving DecidableEq

structure SearchResult where
  id : String
  content : String
  metadata : RecMeta
  distance : ℚ
  similarity : ℚ
deriving DecidableEq

/-- The candidate filter of `search` (lines 428-438): restrict to the given
`application` and/or `docId` when present. -/
def candidateChunks (s : Store) (opts : SearchOpts) : List Record :=
  let byApp := match opts.application with
    | none => s.chunks
    | some app => s.chunks.filter fun c => (c.metadata.application = app : Bool)
  match opts.docId with
  | none => byApp
  | some d => byApp.filter fun c => (c.metadata.docId = d : Bool)

/-- `search` (vectorService.js lines 415-462).  `q` is the query embedding
returned by the provider.  `Array.prototype.sort` with the comparator
`(a, b) => b.similarity - a.similarity` is a stable descending sort by
similarity, modelled by `List.mergeSort`. -/
def search (sqrtf : ℚ → ℚ) (s : Store) (q : Emb) (opts : SearchOpts) :
    List SearchResult :=
  if s.chunks.length = 0 then []
  else
    let limit := DocSvc.jsOrNat opts.limit 5
    let cands := candidateChunks s opts
    if cands.length = 0 then []
    else
      let results : List SimRow := cands.map fun c =>
        { id := c.id, content := c.content, metadata := c.metadata,
          similarity := cosineSimilarity sqrtf q c.embedding }
      let sorted := results.mergeSort fun a b => decide (b.similarity ≤ a.similarity)
      (sorted.take limit).map fun r =>
        { id := r.id, content := r.content, metadata := r.metadata,
          distance := 1 - r.similarity, similarity := r.similarity }

/-- `deleteDocument` (vectorService.js lines 467-479): drop every record
whose `metadata.docId` matches; provider/model are untouched (the store is
then re-persisted). -/
def deleteDocument (s : Store) (docId : String) : Store :=
  { s with chunks := s.chunks.filter fun c => !(c.metadata.docId = docId : Bool) }

end VecSvc

open VecSvc in
/-- C10: calling `addChunks` with an empty chunk list returns
`{success: true, count: 0}` and leaves the vector store completely
unchanged: no records are added or removed, the embedding provider is not
called, the recorded `(provider, model)` pair is not updated, and the
persisted store file is not rewritten. -/
theorem C10_addChunks_empty_list_is_noop (s : Store) (es : List Emb)
    (chunkType : String) (cfg : String × Option String) :
    addChunks s [] es chunkType cfg =
      { result := { success := true, count := 0 }, store := s,
        embedCalled := false, saved := false } := rfl

open VecSvc in
/-- C8: `deleteDocument docId` removes exactly the records whose
`metadata.docId` equals `docId` (the remaining chunk list is the filter of
the original, so every other record keeps its id, content, embedding,
metadata and relative order), leaves the stored provider/model unchanged,
and is idempotent. -/
theorem C8_deleteDocument_removes_exactly_matching (s : Store) (d : String) :
    (deleteDocument s d).chunks =
      (s.chunks.filter fun c => !(c.metadata.docId = d : Bool)) ∧
    (deleteDocument s d).provider = s.provider ∧
    (deleteDocument s d).model = s.model ∧
    deleteDocument (deleteDocument s d) d = deleteDocument s d ∧
    (∀ r ∈ (deleteDocument s d).chunks, r.metadata.docId ≠ d ∧ r ∈ s.chunks) ∧
    (∀ r ∈ s.chunks, r.metadata.docId ≠ d → r ∈ (deleteDocument s d).chunks) := by
  refine ⟨rfl, rfl, rfl, ?_, ?_, ?_⟩
  · simp [deleteDocument, List.filter_filter]
  · intro r hr
    rw [deleteDocument, List.mem_filter] at hr
    refine ⟨?_, hr.1⟩
    simpa using hr.2
  · intro r hr hne
    rw [deleteDocument, List.mem_filter]
    exact ⟨hr, by simpa using hne⟩

namespace VecSvc

theorem mem_candidateChunks {s : Store} {opts : SearchOpts} {c : Record}
    (hc : c ∈ candidateChunks s opts) : c ∈ s.chunks := by
  unfold candidateChunks at hc
  rcases hA : opts.application with _ | app <;>
    rcases hD : opts.docId with _ | d <;>
      simp only [hA, hD, List.mem_filter] at hc
  · exact hc
  · exact hc.1
  · exact hc.1
  · exact hc.1.1

theorem search_result_shape (sqrtf : ℚ → ℚ) (s : Store) (q : Emb)
    (opts : SearchOpts) :
    ∀ r ∈ search sqrtf s q opts, ∃ c ∈ candidateChunks s opts,
      r.id = c.id ∧ r.content = c.content ∧ r.metadata = c.metadata ∧
      r.similarity = cosineSimilarity sqrtf q c.embedding ∧
      r.distance = 1 - r.similarity := by
  intro r hr
  unfold search at hr
  by_cases h1 : s.chunks.length = 0
  · simp [h1] at hr
  · simp only [h1, if_false] at hr
    by_cases h2 : (candidateChunks s opts).length = 0
    · simp [h2] at hr
    · simp only [h2, if_false] at hr
      rcases List.mem_map.mp hr with ⟨row, hrow, rfl⟩
      have hrow2 : row ∈ (candidateChunks s opts).map fun c =>
          ({ id := c.id, content := c.content, metadata := c.metadata,
             similarity := cosineSimilarity sqrtf q c.embedding } : SimRow) :=
        List.mem_mergeSort.mp (List.mem_of_mem_take hrow)
      rcases List.mem_map.mp hrow2 with ⟨c, hc, rfl⟩
      exact ⟨c, hc, rfl, rfl, rfl, rfl, rfl⟩

end VecSvc

open VecSvc in
/-- C5: a dimension mismatch never crashes similarity: `cosineSimilarity`
returns exactly 0 whenever the two vectors have different lengths, and
consequently, when every stored embedding's length differs from the query
embedding's length, every record `search` returns carries similarity 0. -/
theorem C5_dimension_mismatch_similarity_zero (sqrtf : ℚ → ℚ) :
    (∀ a b : Emb, a.length ≠ b.length → cosineSimilarity sqrtf a b = 0) ∧
    (∀ (s : Store) (q : Emb) (opts : SearchOpts),
      (∀ c ∈ s.chunks, c.embedding.length ≠ q.length) →
      ∀ r ∈ search sqrtf s q opts, r.similarity = 0) := by
  constructor
  · intro a b h
    simp [cosineSimilarity, h]
  · intro s q opts hmis r hr
    rcases search_result_shape sqrtf s q opts r hr with
      ⟨c, hc, _, _, _, hsim, _⟩
    have hlen : q.length ≠ c.embedding.length :=
      fun he => hmis c (mem_candidateChunks hc) he.symm
    rw [hsim]
    simp [cosineSimilarity, hlen]

namespace VecSvc

/-- Sample metadata, record and store used to instantiate the theorems on
concrete inputs. -/
def sampleMeta (d : String) : RecMeta :=
  { type := "text", docId := d, chunkIndex := 0, tokenCount := none,
    source := "", numPages := 1, application := "", pageNumber := 1,
    startPage := 1, endPage := 1, imagePath := none, imageFilename := none }

def sampleRec (d : String) (e : Emb) : Record :=
  { id := d ++ "_chunk_0", content := "c", embedding := e,
    metadata := sampleMeta d }

def sampleStore : Store :=
  { chunks := [sampleRec "d" [1, 2]], provider := none, model := none }

end VecSvc

open VecSvc in
/-- C5 witness: `cosineSimilarity` on a 1-vector against a 2-vector is 0,
and a search whose single stored 2-dimensional embedding mismatches a
1-dimensional query returns only similarity-0 results. -/
theorem C5_witness :
    cosineSimilarity (fun x => x) [1] [1, 2] = 0 ∧
    ∀ r ∈ search (fun x => x) sampleStore [1] {}, r.similarity = 0 :=
  ⟨(C5_dimension_mismatch_similarity_zero (fun x => x)).1 [1] [1, 2] (by decide),
   (C5_dimension_mismatch_similarity_zero (fun x => x)).2 sampleStore [1] {}
     (by intro c hc; simp [sampleStore] at hc; subst hc; decide)⟩

open VecSvc in
/-- C8 witness: deleting document `"a"` from a two-document store keeps the
record of document `"b"`. -/
theorem C8_witness :
    sampleRec "b" [3] ∈
      (deleteDocument
        { chunks := [sampleRec "a" [1], sampleRec "b" [3]],
          provider := none, model := none } "a").chunks :=
  (C8_deleteDocument_removes_exactly_matching
    { chunks := [sampleRec "a" [1], sampleRec "b" [3]],
      provider := none, model := none } "a").2.2.2.2.2
    (sampleRec "b" [3]) (by decide) (by decide)

namespace VecSvc

theorem le_simRow_trans (a b c : SimRow)
    (h1 : decide (b.similarity ≤ a.similarity) = true)
    (h2 : decide (c.similarity ≤ b.similarity) = true) :
    decide (c.similarity ≤ a.similarity) = true := by
  simp only [decide_eq_true_eq] at *
  exact le_trans h2 h1

theorem le_simRow_total (a b : SimRow) :
    (decide (b.similarity ≤ a.similarity) ||
      decide (a.similarity ≤ b.similarity)) = true := by
  simp [le_total]

end VecSvc

open VecSvc in
/-- C4: for every store, query embedding and options, `search` returns
results sorted in non-increasing order of similarity, at most
`options.limit || 5` of them, each derived from a candidate record passing
the application/docId filters (with `distance = 1 - similarity`); and it
returns the empty list, not an error, when the store or the filtered
candidate set is empty. -/
theorem C4_search_sorted_bounded_filtered (sqrtf : ℚ → ℚ) (s : Store)
    (q : Emb) (opts : SearchOpts) :
    ((search sqrtf s q opts).map SearchResult.similarity).Sorted (· ≥ ·) ∧
    (search sqrtf s q opts).length ≤ DocSvc.jsOrNat opts.limit 5 ∧
    (∀ r ∈ search sqrtf s q opts, ∃ c ∈ candidateChunks s opts,
      r.id = c.id ∧ r.content = c.content ∧ r.metadata = c.metadata ∧
      r.similarity = cosineSimilarity sqrtf q c.embedding ∧
      r.distance = 1 - r.similarity) ∧
    (candidateChunks s opts = [] → search sqrtf s q opts = []) ∧
    (s.chunks = [] → search sqrtf s q opts = []) := by
  refine ⟨?_, ?_, search_result_shape sqrtf s q opts, ?_, ?_⟩
  · unfold search
    by_cases h1 : s.chunks.length = 0
    · simp [h1]
    · simp only [h1, if_false]
      by_cases h2 : (candidateChunks s opts).length = 0
      · simp [h2]
      · simp only [h2, if_false]
        have hsorted := @List.sorted_mergeSort SimRow
          (fun a b : SimRow => decide (b.similarity ≤ a.similarity))
          le_simRow_trans le_simRow_total
          ((candidateChunks s opts).map fun c =>
            ({ id := c.id, content := c.content, metadata := c.metadata,
               similarity := cosineSimilarity sqrtf q c.embedding } : SimRow))
        rw [List.map_map]
        refine List.Pairwise.map _ ?_
          (hsorted.sublist (List.take_sublist _ _))
        intro a b hab
        simpa using hab
  · unfold search
    by_cases h1 : s.chunks.length = 0
    · simp [h1]
    · simp only [h1, if_false]
      by_cases h2 : (candidateChunks s opts).length = 0
      · simp [h2]
      · simp only [h2, if_false, List.length_map]
        exact List.length_take_le _ _
  · intro hc
    unfold search
    by_cases h1 : s.chunks.length = 0
    · simp [h1]
    · simp [h1, hc]
  · intro hc
    unfold search
    simp [hc]

open VecSvc in
/-- C4 witness: searching an empty store returns the empty list. -/
theorem C4_witness :
    search (fun x => x) { chunks := [], provider := none, model := none }
      [1] {} = [] :=
  (C4_search_sorted_bounded_filtered (fun x => x)
    { chunks := [], provider := none, model := none } [1] {}).2.2.2.2 rfl

namespace VecSvc

/-- The `(chunks[i], embeddings[i])` pairs walked by the `addChunks`
insertion loop; a missing embedding is the empty vector. -/
def pairEmb : List InChunk → List Emb → List (InChunk × Emb)
  | [], _ => []
  | c :: cs, e :: es => (c, e) :: pairEmb cs es
  | c :: cs, [] => (c, []) :: pairEmb cs []

theorem insertChunks_eq_pairEmb (chunkType : String) :
    ∀ (cs : List InChunk) (es : List Emb) (recs : List Record),
      insertChunks chunkType recs cs es =
        (pairEmb cs es).foldl
          (fun acc p =>
            (acc.filter fun r => !(r.id = chunkId chunkType p.1 : Bool)) ++
              [mkRecord chunkType p.1 p.2]) recs := by
  intro cs
  induction cs with
  | nil => intro es recs; cases es <;> rfl
  | cons c cs ih =>
    intro es recs
    cases es with
    | nil => exact ih [] _
    | cons e es => exact ih es _

theorem pairEmb_map_fst : ∀ (cs : List InChunk) (es : List Emb),
    (pairEmb cs es).map Prod.fst = cs := by
  intro cs
  induction cs with
  | nil => intro es; cases es <;> rfl
  | cons c cs ih =>
    intro es
    cases es with
    | nil => simp [pairEmb, ih []]
    | cons e es => simp [pairEmb, ih es]

/-- After the insertion fold, the records carrying a given id are: the
record built from the last processed pair with that derived id, if any;
otherwise whatever the initial list carried. -/
theorem foldl_insert_filter_id (chunkType : String) (d : String)
    (ps : List (InChunk × Emb)) : ∀ (recs : List Record),
    ((ps.foldl
        (fun acc p =>
          (acc.filter fun r => !(r.id = chunkId chunkType p.1 : Bool)) ++
            [mkRecord chunkType p.1 p.2]) recs).filter
      fun r => (r.id = d : Bool)) =
    (match (ps.filter fun p => (chunkId chunkType p.1 = d : Bool)).getLast? with
      | some p => [mkRecord chunkType p.1 p.2]
      | none => recs.filter fun r => (r.id = d : Bool)) := by
  induction ps using List.reverseRecOn with
  | nil => intro recs; rfl
  | append_singleton ps p ih =>
    intro recs
    rw [List.foldl_append, List.foldl_cons, List.foldl_nil,
      List.filter_append, List.filter_filter]
    by_cases hp : chunkId chunkType p.1 = d
    · have h1 : ∀ r : Record,
          ((r.id = d : Bool) && !(r.id = chunkId chunkType p.1 : Bool)) = false := by
        intro r
        by_cases hr : r.id = d <;> simp [hr, hp]
      have h2 : (mkRecord chunkType p.1 p.2).id = d := hp
      simp [h1, List.filter_append, List.filter_cons, hp, h2,
        List.getLast?_concat]
    · have hd : ¬(d = chunkId chunkType p.1) := fun h => hp h.symm
      have h1 : ∀ r : Record,
          ((r.id = d : Bool) && !(r.id = chunkId chunkType p.1 : Bool)) =
            (r.id = d : Bool) := by
        intro r
        by_cases hr : r.id = d <;> simp [hr, hd]
      have h2 : ¬((mkRecord chunkType p.1 p.2).id = d) := hp
      simp only [h1, List.filter_append, List.filter_cons, h2, decide_eq_true_eq]
      rw [ih recs]
      simp [List.filter_append, List.filter_cons, hp]
end VecSvc

namespace VecSvc

theorem insertChunks_nodup (chunkType : String) :
    ∀ (cs : List InChunk) (es : List Emb) (recs : List Record),
      (recs.map Record.id).Nodup →
      ((insertChunks chunkType recs cs es).map Record.id).Nodup := by
  intro cs
  induction cs with
  | nil => intro es recs h; cases es <;> exact h
  | cons c cs ih =>
    intro es recs h
    have hstep : ∀ e : Emb,
        (((recs.filter fun r => !(r.id = chunkId chunkType c : Bool)) ++
          [mkRecord chunkType c e]).map Record.id).Nodup := by
      intro e
      rw [List.map_append]
      refine List.Nodup.append ?_ (by simp) ?_
      · exact ((List.filter_sublist _).map Record.id).nodup h
      · intro x hx
        rcases List.mem_map.mp hx with ⟨r, hr, rfl⟩
        have := (List.mem_filter.mp hr).2
        simp only [Bool.not_eq_eq_eq_not, Bool.not_true, decide_eq_false_iff_not] at this
        simpa [mkRecord, chunkId] using fun he => this he
    cases es with
    | nil => exact ih [] _ (hstep [])
    | cons e es => exact ih es _ (hstep e)

theorem pairEmb_filter_map_fst (g : InChunk → Bool) :
    ∀ (cs : List InChunk) (es : List Emb),
      ((pairEmb cs es).filter fun p => g p.1).map Prod.fst = cs.filter g := by
  intro cs
  induction cs with
  | nil => intro es; cases es <;> rfl
  | cons c cs ih =>
    intro es
    cases es with
    | nil =>
      by_cases hg : g c = true <;>
        simp [pairEmb, List.filter_cons, hg, ih []]
    | cons e es =>
      by_cases hg : g c = true <;>
        simp [pairEmb, List.filter_cons, hg, ih es]

theorem eq_singleton_of_length_le_one_of_mem {α : Type _} {l : List α} {c : α}
    (h1 : l.length ≤ 1) (h2 : c ∈ l) : l = [c] := by
  match l, h1 with
  | [], _ => cases h2
  | [x], _ =>
    rcases List.mem_singleton.mp h2 with rfl
    rfl

theorem filter_chunkId_eq_singleton (chunkType : String) {cs : List InChunk}
    {c : InChunk} (hnd : (cs.map (chunkId chunkType)).Nodup) (hc : c ∈ cs) :
    (cs.filter fun x => (chunkId chunkType x = chunkId chunkType c : Bool)) = [c] := by
  have hcount := (List.nodup_iff_count_le_one.mp hnd) (chunkId chunkType c)
  rw [List.count_eq_countP, List.countP_map] at hcount
  have hlen :
      (cs.filter fun x => (chunkId chunkType x = chunkId chunkType c : Bool)).length ≤ 1 := by
    rw [← List.countP_eq_length_filter]
    refine le_trans (le_of_eq ?_) hcount
    apply List.countP_congr
    intro x _
    by_cases h : chunkId chunkType x = chunkId chunkType c <;>
      simp [Function.comp, h]
  have hmem : c ∈ cs.filter fun x => (chunkId chunkType x = chunkId chunkType c : Bool) :=
    List.mem_filter.mpr ⟨hc, by simp⟩
  exact eq_singleton_of_length_le_one_of_mem hlen hmem

end VecSvc

open VecSvc in
/-- C3: re-ingestion via `addChunks` is idempotent at the record level.  For
any two calls whose chunk lists derive the same ids (same docIds and
indices, the ids of the second call being distinct) on a store with distinct
record ids, after both calls every record id in the store is still distinct,
and for each chunk of the second call the store holds exactly one record
under its derived id, whose content is the content passed in the second
call. -/
theorem C3_addChunks_idempotent_reingestion (s : Store) (chunkType : String)
    (cs1 cs2 : List InChunk) (e1 e2 : List Emb)
    (cfg1 cfg2 : String × Option String)
    (hids : cs1.map (chunkId chunkType) = cs2.map (chunkId chunkType))
    (hnd : (cs2.map (chunkId chunkType)).Nodup)
    (hs : (s.chunks.map Record.id).Nodup) :
    ((((addChunks (addChunks s cs1 e1 chunkType cfg1).store cs2 e2 chunkType
        cfg2).store).chunks.map Record.id).Nodup) ∧
    ∀ c ∈ cs2,
      ((((addChunks (addChunks s cs1 e1 chunkType cfg1).store cs2 e2 chunkType
          cfg2).store).chunks.filter
        fun r => (r.id = chunkId chunkType c : Bool)).map Record.content) =
      [c.content] := by
  constructor
  · by_cases h2 : cs2.length = 0
    · have hc2 : cs2 = [] := List.length_eq_zero.mp h2
      have hc1 : cs1 = [] := by
        have := congrArg List.length hids
        simpa [hc2] using this
      simpa [addChunks, hc1, hc2] using hs
    · have h1 : ¬(cs1.length = 0) := by
        intro h
        apply h2
        have hlen := congrArg List.length hids
        simp only [List.length_map] at hlen
        omega
      simp only [addChunks, h1, h2, if_false]
      exact insertChunks_nodup chunkType cs2 e2 _
        (insertChunks_nodup chunkType cs1 e1 _ hs)
  · intro c hc
    have h2 : ¬(cs2.length = 0) := by
      intro h
      rw [List.length_eq_zero.mp h] at hc
      cases hc
    simp only [addChunks, h2, if_false]
    rw [insertChunks_eq_pairEmb, foldl_insert_filter_id]
    have hpf : ((pairEmb cs2 e2).filter
        fun p => (chunkId chunkType p.1 = chunkId chunkType c : Bool)).map
          Prod.fst = [c] := by
      rw [pairEmb_filter_map_fst
        (fun x => (chunkId chunkType x = chunkId chunkType c : Bool))]
      exact filter_chunkId_eq_singleton chunkType hnd hc
    rcases hpemb : (pairEmb cs2 e2).filter
        fun p => (chunkId chunkType p.1 = chunkId chunkType c : Bool) with
      _ | ⟨pc, tail⟩
    · rw [hpemb] at hpf
      cases hpf
    · rw [hpemb] at hpf
      simp only [List.map_cons] at hpf
      have htail : tail = [] := by
        cases tail with
        | nil => rfl
        | cons x xs => simp at hpf
      subst htail
      have hpc : pc.1 = c := by simpa using hpf
      rw [hpemb]
      simp [mkRecord, hpc]

namespace VecSvc

/-- A minimal input chunk for concrete instantiations. -/
def inC (content : String) : InChunk :=
  { content := content, docId := "d", index := 0, tokenCount := none,
    source := none, numPages := none, application := none, pageNumber := none,
    startPage := none, endPage := none, imagePath := none,
    imageFilename := none }

end VecSvc

open VecSvc in
/-- C3 witness: ingesting `docId "d"` index 0 twice (content `"old"` then
`"new"`) leaves exactly one record under the derived id, carrying `"new"`. -/
theorem C3_witness :
    ((((addChunks
        (addChunks { chunks := [], provider := none, model := none }
          [inC "old"] [[1]] "text" ("openai", some "m")).store
        [inC "new"] [[2]] "text" ("openai", some "m")).store).chunks.filter
      fun r => (r.id = chunkId "text" (inC "new") : Bool)).map
        Record.content) = ["new"] :=
  (C3_addChunks_idempotent_reingestion
    { chunks := [], provider := none, model := none } "text"
    [inC "old"] [inC "new"] [[1]] [[2]] ("openai", some "m")
    ("openai", some "m") (by decide) (by decide) (by decide)).2
    (inC "new") (by decide)

namespace VecSvc

/-! ### `getEmbeddingConfig` (vectorService.js lines 96-148) and the
`generateEmbeddings` credential check (lines 258-267)

The settings store, the process environment and `decrypt` are parameters.
`decrypt` (encryption.js lines 38-54) fails closed by returning `""`; the
caller nevertheless also wraps it in `try/catch`, so a thrown failure is
modelled as `none` and a returned plaintext (possibly empty on failure) as
`some`. -/

structure SettingsState where
  embedding_provider : Option String := none
  embedding_model : Option String := none
  embedding_use_chat_key : Option String := none
  ollama_url : Option String := none
  api_key : Option String := none
  embedding_api_key : Option String := none
deriving DecidableEq

structure EnvVars where
  OPENAI_API_KEY : Option String := none
  OPENROUTER_API_KEY : Option String := none
  COHERE_API_KEY : Option String := none
  JINA_API_KEY : Option String := none
deriving DecidableEq

/-- `EMBEDDING_PROVIDERS[p]?.name` (lines 16-47). -/
def providerDisplayName : String → Option String
  | "openai" => some "OpenAI"
  | "openrouter" => some "OpenRouter"
  | "cohere" => some "Cohere"
  | "jina" => some "Jina AI"
  | "ollama" => some "Ollama (Local)"
  | _ => none

/-- `EMBEDDING_PROVIDERS[p]?.defaultModel` (lines 16-47). -/
def providerDefaultModel : String → Option String
  | "openai" => some "text-embedding-3-small"
  | "openrouter" => some "openai/text-embedding-3-small"
  | "cohere" => some "embed-english-v3.0"
  | "jina" => some "jina-embeddings-v2-base-en"
  | "ollama" => some "nomic-embed-text"
  | _ => none

/-- JavaScript truthiness of a possibly-absent string. -/
def truthy : Option String → Bool
  | none => false
  | some s => !(s = "" : Bool)

/-- Lines 104-124: `if (storedKey) { try { apiKey = decrypt(storedKey) ||
storedKey } catch { apiKey = storedKey } }`.  A decrypt failure — empty
result (`some ""`) or throw (`none`) — yields the stored ciphertext
itself. -/
def resolveStoredKey (dec : String → Option String) :
    Option String → Option String
  | none => none
  | some k =>
    if k = "" then none
    else
      match dec k with
      | none => some k
      | some p => if p = "" then some k else some p

/-- The stored key consulted by the active branch (`embedding_use_chat_key`
selects the chat key, otherwise the dedicated embedding key). -/
def selectedStoredKey (st : SettingsState) : Option String :=
  if st.embedding_use_chat_key = some "true" then st.api_key
  else st.embedding_api_key

/-- The environment-variable fallback switch (lines 127-145). -/
def envDefaultKey (provider : String) (env : EnvVars) : Option String :=
  match provider with
  | "openai" => env.OPENAI_API_KEY
  | "openrouter" => env.OPENROUTER_API_KEY
  | "cohere" => env.COHERE_API_KEY
  | "jina" => env.JINA_API_KEY
  | "ollama" => some "not-required"
  | _ => none

structure EmbConfig where
  provider : String
  model : Option String
  apiKey : Option String
  useChatKey : Bool
  ollamaUrl : String
deriving DecidableEq

/-- `getEmbeddingConfig` (vectorService.js lines 96-148). -/
def getEmbeddingConfig (dec : String → Option String) (st : SettingsState)
    (env : EnvVars) : EmbConfig :=
  let provider := DocSvc.jsOrStr st.embedding_provider "openai"
  let model := if truthy st.embedding_model then st.embedding_model
    else providerDefaultModel provider
  let useChatKey := (st.embedding_use_chat_key = some "true" : Bool)
  let ollamaUrl := DocSvc.jsOrStr st.ollama_url "http://localhost:11434"
  let stored := if useChatKey then resolveStoredKey dec st.api_key
    else resolveStoredKey dec st.embedding_api_key
  let apiKey := if truthy stored then stored
    else
      match provider with
      | "openai" => env.OPENAI_API_KEY
      | "openrouter" => env.OPENROUTER_API_KEY
      | "cohere" => env.COHERE_API_KEY
      | "jina" => env.JINA_API_KEY
      | "ollama" => some "not-required"
      | _ => stored
  { provider := provider, model := model, apiKey := apiKey,
    useChatKey := useChatKey, ollamaUrl := ollamaUrl }

/-- The `generateEmbeddings` error message (lines 263-266). -/
def notConfiguredMsg (provider : String) : String :=
  "No API key configured for " ++
    DocSvc.jsOrStr (providerDisplayName provider) provider ++
    " embeddings. Please configure in Admin Settings → Embeddings, or set the appropriate environment variable."

/-- The credential check at the top of `generateEmbeddings` (lines
262-267): no usable key and a provider other than ollama fail before any
provider dispatch. -/
def generateEmbeddingsGate (cfg : EmbConfig) : Except String Unit :=
  if !truthy cfg.apiKey && !(cfg.provider = "ollama" : Bool) then
    Except.error (notConfiguredMsg cfg.provider)
  else Except.ok ()

end VecSvc

open VecSvc in
/-- C1, counterexample: with a stored embedding key whose decryption fails
(decrypt returns the empty string) and `OPENAI_API_KEY` set in the
environment, the resolved `apiKey` is the stored ciphertext itself, not the
environment-variable default the claim requires. -/
theorem C1_counterexample_ciphertext_used_as_key :
    (getEmbeddingConfig (fun _ => some "")
      { embedding_api_key := some "6a5f:deadbeef" }
      { OPENAI_API_KEY := some "sk-env-default" }).apiKey =
        some "6a5f:deadbeef" ∧
    (getEmbeddingConfig (fun _ => some "")
      { embedding_api_key := some "6a5f:deadbeef" }
      { OPENAI_API_KEY := some "sk-env-default" }).apiKey ≠
        some "sk-env-default" := by
  constructor
  · rfl
  · decide

namespace VecSvc

theorem getEmbeddingConfig_apiKey_eq (dec : String → Option String)
    (st : SettingsState) (env : EnvVars) :
    (getEmbeddingConfig dec st env).apiKey =
      (if truthy (resolveStoredKey dec (selectedStoredKey st)) then
        resolveStoredKey dec (selectedStoredKey st)
      else
        match DocSvc.jsOrStr st.embedding_provider "openai" with
        | "openai" => env.OPENAI_API_KEY
        | "openrouter" => env.OPENROUTER_API_KEY
        | "cohere" => env.COHERE_API_KEY
        | "jina" => env.JINA_API_KEY
        | "ollama" => some "not-required"
        | _ => resolveStoredKey dec (selectedStoredKey st)) := by
  by_cases huse : st.embedding_use_chat_key = some "true" <;>
    simp [getEmbeddingConfig, selectedStoredKey, huse]

theorem getEmbeddingConfig_provider_eq (dec : String → Option String)
    (st : SettingsState) (env : EnvVars) :
    (getEmbeddingConfig dec st env).provider =
      DocSvc.jsOrStr st.embedding_provider "openai" := rfl

end VecSvc

open VecSvc in
/-- C1, amended: when the selected stored key is present but fails to
decrypt (decrypt returns empty or throws), the resolved `apiKey` is the
stored ciphertext itself — not the environment default; the
provider-specific environment variable is consulted only when no stored key
is present (or it is empty); and when the resolved key is still unusable
and the provider is not ollama, `generateEmbeddings` fails with a
"No API key configured" error that names the provider. -/
theorem C1_amended_decrypt_fallback (dec : String → Option String)
    (st : SettingsState) (env : EnvVars) :
    (∀ k, selectedStoredKey st = some k → k ≠ "" →
      (dec k = none ∨ dec k = some "") →
      (getEmbeddingConfig dec st env).apiKey = some k) ∧
    ((selectedStoredKey st = none ∨ selectedStoredKey st = some "") →
      (getEmbeddingConfig dec st env).apiKey =
        envDefaultKey (DocSvc.jsOrStr st.embedding_provider "openai") env) ∧
    (¬(truthy (getEmbeddingConfig dec st env).apiKey = true) →
      (getEmbeddingConfig dec st env).provider ≠ "ollama" →
      generateEmbeddingsGate (getEmbeddingConfig dec st env) =
        Except.error
          (notConfiguredMsg (getEmbeddingConfig dec st env).provider) ∧
      (DocSvc.jsOrStr
          (providerDisplayName (getEmbeddingConfig dec st env).provider)
          (getEmbeddingConfig dec st env).provider).toList <:+:
        (notConfiguredMsg (getEmbeddingConfig dec st env).provider).toList) := by
  refine ⟨?_, ?_, ?_⟩
  · intro k hsel hk hfail
    have hres : resolveStoredKey dec (selectedStoredKey st) = some k := by
      rw [hsel]
      unfold resolveStoredKey
      rcases hfail with h | h <;> simp [hk, h]
    have htr : truthy (some k) = true := by simp [truthy, hk]
    rw [getEmbeddingConfig_apiKey_eq, hres, htr]
    simp
  · intro hsel
    have hres : resolveStoredKey dec (selectedStoredKey st) = none := by
      rcases hsel with h | h <;> rw [h] <;> simp [resolveStoredKey]
    rw [getEmbeddingConfig_apiKey_eq, hres]
    simp only [truthy, Bool.false_eq_true, if_false]
    unfold envDefaultKey
    split <;> rfl
  · intro h1 h2
    constructor
    · unfold generateEmbeddingsGate
      have hb1 : truthy (getEmbeddingConfig dec st env).apiKey = false := by
        revert h1
        cases truthy (getEmbeddingConfig dec st env).apiKey <;> simp
      have hb2 : ((getEmbeddingConfig dec st env).provider = "ollama" : Bool)
          = false := by simpa using h2
      rw [hb1, hb2]
      rfl
    · refine ⟨"No API key configured for ".toList,
        (" embeddings. Please configure in Admin Settings → Embeddings, or set the appropriate environment variable.").toList, ?_⟩
      rfl

open VecSvc in
/-- C1 witness: the three amended clauses at concrete inputs — a stored key
whose decryption throws resolves to the ciphertext; with no stored key the
openai environment default is used; with neither, a cohere configuration
fails with the "No API key configured" message. -/
theorem C1_witness :
    (getEmbeddingConfig (fun _ => none)
      { embedding_api_key := some "zz:yy" } {}).apiKey = some "zz:yy" ∧
    (getEmbeddingConfig (fun _ => some "") {}
      { OPENAI_API_KEY := some "sk-e" }).apiKey = some "sk-e" ∧
    generateEmbeddingsGate (getEmbeddingConfig (fun _ => some "")
      { embedding_provider := some "cohere" } {}) =
      Except.error (notConfiguredMsg "cohere") :=
  ⟨(C1_amended_decrypt_fallback (fun _ => none)
      { embedding_api_key := some "zz:yy" } {}).1 "zz:yy" (by decide)
      (by decide) (Or.inl rfl),
   (C1_amended_decrypt_fallback (fun _ => some "") {}
      { OPENAI_API_KEY := some "sk-e" }).2.1 (Or.inl (by decide)),
   ((C1_amended_decrypt_fallback (fun _ => some "")
      { embedding_provider := some "cohere" } {}).2.2 (by decide)
      (by decide)).1⟩

namespace DocSvc

/-! ### The rendered-page cache of `renderPDFPage` (documentService.js
lines 14-17 and 523-620)

`renderCache` is a JavaScript `Map`, modelled as an insertion-ordered
association list: `Map.get` returns the entry for a key, `Map.set` updates
an existing key in place (keeping its position) or appends a new one, and
`Map.prototype.keys().next().value` is the first (oldest-inserted) key.
The actual rasterizing (`pdftoppm`, the `pdf-to-img` fallback, `sharp`
re-encoding) is an abstract function `render`; `Date.now()` is the
parameter `now`. -/

def CACHE_MAX_SIZE : ℕ := 100

def CACHE_TTL : ℤ := 5 * 60 * 1000

structure CacheEntry (B : Type) where
  buffer : B
  timestamp : ℤ
deriving DecidableEq

abbrev RenderCache (B : Type) := List (String × CacheEntry B)

/-- `Map.get`. -/
def cacheGet {B : Type} : RenderCache B → String → Option (CacheEntry B)
  | [], _ => none
  | p :: rest, k => if p.1 = k then some p.2 else cacheGet rest k

/-- `Map.set`: update in place (keeping insertion order) or append. -/
def cacheSet {B : Type} : RenderCache B → String → CacheEntry B → RenderCache B
  | [], k, v => [(k, v)]
  | p :: rest, k, v =>
    if p.1 = k then (k, v) :: rest else p :: cacheSet rest k v

structure RenderOut (B : Type) where
  buffer : B
  cache : RenderCache B
  fromCache : Bool
deriving DecidableEq

/-- `renderPDFPage` (documentService.js lines 523-620), reduced to its
cache behaviour: a fresh-enough entry is returned as a hit; otherwise the
page is rendered, the oldest-inserted entry is evicted when the cache is at
capacity (`renderCache.size >= CACHE_MAX_SIZE` deletes
`renderCache.keys().next().value`), and the result is cached. -/
def renderPDFPage {B : Type} (render : String → ℕ → B) (now : ℤ)
    (cache : RenderCache B) (docId : String) (pageNumber : ℕ) : RenderOut B :=
  let cacheKey := docId ++ "_" ++ toString pageNumber
  match cacheGet cache cacheKey with
  | some e =>
    if now - e.timestamp < CACHE_TTL then
      { buffer := e.buffer, cache := cache, fromCache := true }
    else
      let imageBuffer := render docId pageNumber
      let c1 := if CACHE_MAX_SIZE ≤ cache.length then cache.tail else cache
      { buffer := imageBuffer,
        cache := cacheSet c1 cacheKey { buffer := imageBuffer, timestamp := now },
        fromCache := false }
  | none =>
    let imageBuffer := render docId pageNumber
    let c1 := if CACHE_MAX_SIZE ≤ cache.length then cache.tail else cache
    { buffer := imageBuffer,
      cache := cacheSet c1 cacheKey { buffer := imageBuffer, timestamp := now },
      fromCache := false }

/-- A sequence of `renderPDFPage` calls `(now, docId, pageNumber)` starting
from the empty cache, as observed through the module-level `renderCache`. -/
def runRenders {B : Type} (render : String → ℕ → B)
    (ops : List (ℤ × String × ℕ)) : RenderCache B :=
  ops.foldl (fun c op => (renderPDFPage render op.1 c op.2.1 op.2.2).cache) []

theorem cacheSet_length {B : Type} (c : RenderCache B) (k : String)
    (v : CacheEntry B) : (cacheSet c k v).length ≤ c.length + 1 := by
  induction c with
  | nil => simp [cacheSet]
  | cons p rest ih =>
    by_cases h : p.1 = k <;> simp [cacheSet, h]
    omega

theorem cacheGet_cacheSet_same {B : Type} (c : RenderCache B) (k : String)
    (v : CacheEntry B) : cacheGet (cacheSet c k v) k = some v := by
  induction c with
  | nil => simp [cacheSet, cacheGet]
  | cons p rest ih =>
    by_cases h : p.1 = k <;> simp [cacheSet, h, cacheGet, ih]

theorem mem_keys_cacheSet {B : Type} (c : RenderCache B) (k : String)
    (v : CacheEntry B) (x : String) (hx : x ∈ (cacheSet c k v).map Prod.fst) :
    x ∈ c.map Prod.fst ∨ x = k := by
  induction c with
  | nil => simpa [cacheSet] using hx
  | cons p rest ih =>
    by_cases h : p.1 = k
    · simp only [cacheSet, h, if_true, List.map_cons, List.mem_cons] at hx ⊢
      tauto
    · simp only [cacheSet, h, if_false, List.map_cons, List.mem_cons] at hx ⊢
      rcases hx with h1 | h1
      · tauto
      · rcases ih h1 with h2 | h2 <;> tauto

theorem renderPDFPage_cache_length {B : Type} (render : String → ℕ → B)
    (now : ℤ) (cache : RenderCache B) (d : String) (p : ℕ)
    (h : cache.length ≤ CACHE_MAX_SIZE) :
    (renderPDFPage render now cache d p).cache.length ≤ CACHE_MAX_SIZE := by
  unfold renderPDFPage
  rcases hget : cacheGet cache (d ++ "_" ++ toString p) with _ | e
  · simp only [hget]
    by_cases hlen : CACHE_MAX_SIZE ≤ cache.length
    · simp only [hlen, if_true]
      have h1 := cacheSet_length cache.tail (d ++ "_" ++ toString p)
        (⟨render d p, now⟩ : CacheEntry B)
      have h2 : cache.tail.length + 1 ≤ cache.length := by
        cases cache with
        | nil => simp [CACHE_MAX_SIZE] at hlen
        | cons q rest => simp
      omega
    · simp only [hlen, if_false]
      have h1 := cacheSet_length cache (d ++ "_" ++ toString p)
        (⟨render d p, now⟩ : CacheEntry B)
      omega
  · simp only [hget]
    by_cases hfresh : now - e.timestamp < CACHE_TTL
    · simpa [hfresh] using h
    · simp only [hfresh, if_false]
      by_cases hlen : CACHE_MAX_SIZE ≤ cache.length
      · simp only [hlen, if_true]
        have h1 := cacheSet_length cache.tail (d ++ "_" ++ toString p)
          (⟨render d p, now⟩ : CacheEntry B)
        have h2 : cache.tail.length + 1 ≤ cache.length := by
          cases cache with
          | nil => simp [CACHE_MAX_SIZE] at hlen
          | cons q rest => simp
        omega
      · simp only [hlen, if_false]
        have h1 := cacheSet_length cache (d ++ "_" ++ toString p)
          (⟨render d p, now⟩ : CacheEntry B)
        omega

end DocSvc

open DocSvc in
/-- C9: the rendered-page cache is capacity- and time-bounded.  Across every
sequence of `renderPDFPage` calls the cache never holds more than
`CACHE_MAX_SIZE` (100) entries; a miss-insertion at capacity drops the
oldest-inserted (first) entry, whose key is then absent from the cache; and
an entry at least `CACHE_TTL` (5 minutes) old is treated as a miss — its
buffer is not returned, the page is re-rendered and the fresh render is
cached. -/
theorem C9_render_cache_capacity_and_ttl (B : Type)
    (render : String → ℕ → B) :
    (∀ ops : List (ℤ × String × ℕ),
      (runRenders render ops).length ≤ CACHE_MAX_SIZE) ∧
    (∀ (now : ℤ) (cache : RenderCache B) (d : String) (p : ℕ),
      cacheGet cache (d ++ "_" ++ toString p) = none →
      CACHE_MAX_SIZE ≤ cache.length →
      (renderPDFPage render now cache d p).cache =
        cacheSet cache.tail (d ++ "_" ++ toString p)
          { buffer := render d p, timestamp := now } ∧
      ((cache.map Prod.fst).Nodup → ∀ q, cache.head? = some q →
        q.1 ∉ (renderPDFPage render now cache d p).cache.map Prod.fst)) ∧
    (∀ (now : ℤ) (cache : RenderCache B) (d : String) (p : ℕ)
      (e : CacheEntry B),
      cacheGet cache (d ++ "_" ++ toString p) = some e →
      ¬(now - e.timestamp < CACHE_TTL) →
      (renderPDFPage render now cache d p).fromCache = false ∧
      (renderPDFPage render now cache d p).buffer = render d p ∧
      cacheGet (renderPDFPage render now cache d p).cache
        (d ++ "_" ++ toString p) =
        some { buffer := render d p, timestamp := now }) := by
  refine ⟨?_, ?_, ?_⟩
  · intro ops
    suffices h : ∀ (c : RenderCache B), c.length ≤ CACHE_MAX_SIZE →
        (ops.foldl
          (fun c op => (renderPDFPage render op.1 c op.2.1 op.2.2).cache)
          c).length ≤ CACHE_MAX_SIZE by
      exact h [] (by simp [CACHE_MAX_SIZE])
    induction ops with
    | nil => intro c hc; simpa using hc
    | cons op ops ih =>
      intro c hc
      exact ih _ (renderPDFPage_cache_length render op.1 c op.2.1 op.2.2 hc)
  · intro now cache d p hget hlen
    have hcache : (renderPDFPage render now cache d p).cache =
        cacheSet cache.tail (d ++ "_" ++ toString p)
          { buffer := render d p, timestamp := now } := by
      unfold renderPDFPage
      simp only [hget, hlen, if_true]
    refine ⟨hcache, ?_⟩
    intro hnd q hq hqmem
    rw [hcache] at hqmem
    have hqk : q.1 ≠ d ++ "_" ++ toString p := by
      intro he
      cases cache with
      | nil => cases hq
      | cons r rest =>
        cases Option.some.inj hq
        rw [cacheGet, if_pos he] at hget
        cases hget
    rcases mem_keys_cacheSet _ _ _ _ hqmem with hin | hk
    · cases cache with
      | nil => cases hq
      | cons r rest =>
        cases Option.some.inj hq
        rw [List.map_cons, List.nodup_cons] at hnd
        exact hnd.1 (by simpa using hin)
    · exact hqk hk
  · intro now cache d p e hget hfresh
    unfold renderPDFPage
    simp only [hget, hfresh, if_false]
    exact ⟨trivial, trivial, cacheGet_cacheSet_same _ _ _⟩

open DocSvc in
/-- C9 witness: a 100-entry cache at capacity evicts its first entry on a
missing key, and a 5-minute-old entry is re-rendered rather than served. -/
theorem C9_witness :
    (renderPDFPage (fun _ _ => (0 : ℕ)) 0
        ((List.range CACHE_MAX_SIZE).map fun i =>
          (toString i, ({ buffer := 0, timestamp := 0 } : CacheEntry ℕ)))
        "d" 1).cache =
      cacheSet
        (((List.range CACHE_MAX_SIZE).map fun i =>
          (toString i, ({ buffer := 0, timestamp := 0 } : CacheEntry ℕ))).tail)
        ("d" ++ "_" ++ toString 1) { buffer := 0, timestamp := 0 } ∧
    (renderPDFPage (fun _ _ => (7 : ℕ)) CACHE_TTL
        [("d" ++ "_" ++ toString 1, { buffer := 3, timestamp := 0 })]
        "d" 1).fromCache = false ∧
    (renderPDFPage (fun _ _ => (7 : ℕ)) CACHE_TTL
        [("d" ++ "_" ++ toString 1, { buffer := 3, timestamp := 0 })]
        "d" 1).buffer = 7 :=
  ⟨((C9_render_cache_capacity_and_ttl ℕ (fun _ _ => 0)).2.1 0
      ((List.range CACHE_MAX_SIZE).map fun i =>
        (toString i, ({ buffer := 0, timestamp := 0 } : CacheEntry ℕ)))
      "d" 1 (by decide) (by decide)).1,
   ((C9_render_cache_capacity_and_ttl ℕ (fun _ _ => 7)).2.2 CACHE_TTL
      [("d" ++ "_" ++ toString 1, { buffer := 3, timestamp := 0 })]
      "d" 1 { buffer := 3, timestamp := 0 } (by decide) (by decide)).1,
   ((C9_render_cache_capacity_and_ttl ℕ (fun _ _ => 7)).2.2 CACHE_TTL
      [("d" ++ "_" ++ toString 1, { buffer := 3, timestamp := 0 })]
      "d" 1 { buffer := 3, timestamp := 0 } (by decide) (by decide)).2.1⟩

namespace DocSvc

/-- The chunk produced by `chunkByPages` on one 60-character page. -/
def samplePChunk : PChunk :=
  { content := List.replicate 60 'x', index := 0, tokenCount := 15,
    pageNumber := 1, startPage := 1, endPage := 1 }

end DocSvc

open DocSvc in
/-- C6 witness: a single 60-character page yields exactly its one chunk,
whose start/end pages equal its page number. -/
theorem C6_witness :
    samplePChunk.startPage = samplePChunk.pageNumber ∧
    samplePChunk.endPage = samplePChunk.pageNumber :=
  (C6_chunkByPages_one_chunk_per_qualifying_page
    [{ page := 1, text := List.replicate 60 'x' }] {}).2.2.2.2
    samplePChunk (by decide)

namespace DocSvc

/-! ### Shape predicates for the token-window overlap proof (C7)

`cleanText` output and the chunker's running buffer satisfy whitespace-shape
invariants: whitespace is only `' '` or `'\n'`, spaces are isolated and never
directly precede a newline (`rule2`), and — for cleaned text — never directly
follow one (`rule3`). -/

def headNotWs : List Char → Prop
  | [] => False
  | c :: _ => isJsWs c = false

def lastNotWs (l : List Char) : Prop := headNotWs l.reverse

def wsOnly (l : List Char) : Prop :=
  ∀ c ∈ l, isJsWs c = true → c = ' ' ∨ c = '\n'

def rule2 (a b : Char) : Prop := a = ' ' → b ≠ ' ' ∧ b ≠ '\n'

def rule3 (a b : Char) : Prop := a = '\n' → b ≠ ' '

def ParaGood (p : List Char) : Prop :=
  headNotWs p ∧ lastNotWs p ∧ wsOnly p ∧ List.Chain' rule2 p

theorem headNotWs.ne_nil {l : List Char} (h : headNotWs l) : l ≠ [] := by
  cases l with
  | nil => cases h
  | cons c rest => simp

theorem headNotWs_append {p q : List Char} (h : headNotWs p) :
    headNotWs (p ++ q) := by
  cases p with
  | nil => cases h
  | cons c rest => exact h

theorem headNotWs_head? {l : List Char} (h : headNotWs l) :
    ∀ c ∈ l.head?, isJsWs c = false := by
  cases l with
  | nil => cases h
  | cons c rest => intro x hx; cases hx; exact h

theorem headNotWs_of_head? {l : List Char} {c : Char}
    (hc : l.head? = some c) (h : isJsWs c = false) : headNotWs l := by
  cases l with
  | nil => cases hc
  | cons x rest => cases hc; exact h

theorem lastNotWs_getLast? {l : List Char} (h : lastNotWs l) :
    ∀ c ∈ l.getLast?, isJsWs c = false := by
  intro c hc
  rw [← List.head?_reverse] at hc
  exact headNotWs_head? h c hc

theorem wsOnly_append {p q : List Char} (hp : wsOnly p) (hq : wsOnly q) :
    wsOnly (p ++ q) := by
  intro c hc
  rcases List.mem_append.mp hc with h | h
  · exact hp c h
  · exact hq c h

theorem wsOnly_of_sublist {p q : List Char} (h : p.Sublist q)
    (hq : wsOnly q) : wsOnly p := fun c hc => hq c (h.mem hc)

theorem nws_ne_space {c : Char} (h : isJsWs c = false) : c ≠ ' ' := by
  intro he
  subst he
  simp [isJsWs] at h

theorem nws_ne_nl {c : Char} (h : isJsWs c = false) : c ≠ '\n' := by
  intro he
  subst he
  simp [isJsWs] at h

theorem wsOnly_resolve {l : List Char} (hl : wsOnly l) {c : Char}
    (hc : c ∈ l) (h1 : c ≠ ' ') (h2 : c ≠ '\n') : isJsWs c = false := by
  cases hw : isJsWs c with
  | false => rfl
  | true => rcases hl c hc hw with h | h <;> [exact absurd h h1; exact absurd h h2]

/-! ### `jsTrim` lemmas -/

theorem ltrimWs_eq_self {l : List Char} (h : headNotWs l) : ltrimWs l = l := by
  cases l with
  | nil => cases h
  | cons c rest =>
    have h' : isJsWs c = false := h
    simp [ltrimWs, List.dropWhile_cons, h']

theorem rtrimWs_isPrefix (l : List Char) : rtrimWs l <+: l := by
  have h := List.dropWhile_suffix (l := l.reverse) isJsWs
  have h2 : (l.reverse.dropWhile isJsWs).reverse <+: l.reverse.reverse :=
    List.reverse_prefix.mpr h
  simpa using h2

theorem rtrimWs_cons {c : Char} {l : List Char}
    (h : ∃ a ∈ l, isJsWs a = false) : rtrimWs (c :: l) = c :: rtrimWs l := by
  rcases h with ⟨a, ha, hws⟩
  have hne : (l.reverse.dropWhile isJsWs).isEmpty = false := by
    rw [List.isEmpty_eq_false]
    intro hnil
    have := List.dropWhile_eq_nil_iff.mp hnil a (List.mem_reverse.mpr ha)
    rw [hws] at this
    cases this
  unfold rtrimWs
  rw [List.reverse_cons, List.dropWhile_append, hne]
  simp

theorem rtrimWs_append {p l : List Char} (h : ∃ a ∈ l, isJsWs a = false) :
    rtrimWs (p ++ l) = p ++ rtrimWs l := by
  induction p with
  | nil => simp
  | cons c p ih =>
    have h2 : ∃ a ∈ p ++ l, isJsWs a = false := by
      rcases h with ⟨a, ha, hws⟩
      exact ⟨a, List.mem_append.mpr (Or.inr ha), hws⟩
    rw [List.cons_append, rtrimWs_cons h2, ih]
    rfl

theorem jsTrim_of_headNotWs {l : List Char} (h : headNotWs l) :
    jsTrim l = rtrimWs l := by
  rw [jsTrim, ltrimWs_eq_self h]

end DocSvc

namespace DocSvc

/-- `rule1`: spaces are isolated (no two adjacent spaces). -/
def rule1 (a b : Char) : Prop := a = ' ' → b ≠ ' '

def ruleB (a b : Char) : Prop := rule2 a b ∧ rule3 a b

theorem wsOnly_collapseHWGo : ∀ (l : List Char) (pend : Bool),
    wsOnly (collapseHWGo pend l) := by
  intro l
  induction l with
  | nil =>
    intro pend
    intro x hx
    cases pend <;> simp [collapseHWGo] at hx
    subst hx
    intro
    exact Or.inl rfl
  | cons c rest ih =>
    intro pend
    by_cases hw : isHW c = true
    · intro x hx
      simp only [collapseHWGo, hw, if_true] at hx
      exact ih true x hx
    · have hc' : isJsWs c = true → c = ' ' ∨ c = '\n' := by
        intro hws
        right
        have h2 : isHW c = false := by simpa using hw
        rw [isHW, hws] at h2
        simpa using h2
      have hw' : (isHW c = true) = False := by simpa using hw
      cases pend <;> intro x hx <;>
        simp only [collapseHWGo, hw', Bool.false_eq_true, if_false,
          if_true] at hx
      · rcases List.mem_cons.mp hx with rfl | hx
        · exact hc'
        · exact ih false x hx
      · rcases List.mem_cons.mp hx with rfl | hx
        · intro
          exact Or.inl rfl
        · rcases List.mem_cons.mp hx with rfl | hx
          · exact hc'
          · exact ih false x hx

theorem chain_rule1_collapseHWGo : ∀ (l : List Char) (pend : Bool),
    List.Chain' rule1 (collapseHWGo pend l) := by
  intro l
  induction l with
  | nil => intro pend; cases pend <;> simp [collapseHWGo]
  | cons c rest ih =>
    intro pend
    by_cases hw : isHW c = true
    · simpa only [collapseHWGo, hw, if_true] using ih true
    · have hcs : c ≠ ' ' := by
        intro he
        subst he
        simp [isHW, isJsWs] at hw
      have hw' : (isHW c = true) = False := by simpa using hw
      have hrest : List.Chain' rule1 (c :: collapseHWGo false rest) := by
        rw [List.chain'_cons']
        exact ⟨fun y _ hy => absurd hy hcs, ih false⟩
      cases pend <;> simp only [collapseHWGo, hw', Bool.false_eq_true,
        if_false, if_true]
      · exact hrest
      · rw [List.chain'_cons']
        refine ⟨?_, hrest⟩
        intro y hy
        cases hy
        exact fun _ => hcs

theorem stripNLGo_chain : ∀ (l : List Char) (n : ℕ) (skip : Bool),
    List.Chain' rule1 l → n ≤ 1 →
    (n = 1 → ∀ c ∈ l.head?, c ≠ ' ') →
    (skip = true → n = 0) →
    List.Chain' ruleB (stripNLGo n skip l) ∧
    (skip = true → ∀ c ∈ (stripNLGo n skip l).head?, c ≠ ' ') := by
  intro l
  induction l with
  | nil =>
    intro n skip _ hn _ hskip
    constructor
    · interval_cases n <;> simp [stripNLGo]
    · intro hsk
      rw [hskip hsk]
      simp [stripNLGo]
  | cons c rest ih =>
    intro n skip hch hn hn1 hskip
    have hch' : List.Chain' rule1 rest := (List.chain'_cons'.mp hch).2
    by_cases hsp : c = ' '
    · subst hsp
      cases skip with
      | true =>
        have hn0 : n = 0 := hskip rfl
        subst hn0
        have hstep := ih 0 true hch' (by omega) (by omega) (fun _ => rfl)
        constructor
        · simpa [stripNLGo] using hstep.1
        · intro _
          simpa [stripNLGo] using hstep.2 rfl
      | false =>
        have hn0 : n = 0 := by
          rcases Nat.le_one_iff_eq_zero_or_eq_one.mp hn with h | h
          · exact h
          · exact absurd rfl (hn1 h ' ' rfl)
        subst hn0
        have hnext : ∀ c ∈ rest.head?, c ≠ ' ' :=
          fun y hy => (List.chain'_cons'.mp hch).1 y hy rfl
        have hstep := ih 1 false hch' (by omega) (fun _ => hnext) (by simp)
        constructor
        · simpa [stripNLGo] using hstep.1
        · simp
    · by_cases hnl : c = '\n'
      · subst hnl
        have hstep := ih 0 true hch' (by omega) (by omega) (fun _ => rfl)
        have hout : stripNLGo n skip ('\n' :: rest) =
            '\n' :: stripNLGo 0 true rest := by
          simp [stripNLGo, hsp]
        constructor
        · rw [hout, List.chain'_cons']
          refine ⟨?_, hstep.1⟩
          intro y hy
          exact ⟨fun h => absurd h (by decide), fun _ => hstep.2 rfl y hy⟩
        · intro _
          rw [hout]
          intro y hy
          cases hy
          decide
      · have hstep := ih 0 false hch' (by omega) (by omega) (by simp)
        have hcons : List.Chain' ruleB (c :: stripNLGo 0 false rest) := by
          rw [List.chain'_cons']
          exact ⟨fun y _ => ⟨fun h => absurd h hsp, fun h => absurd h hnl⟩,
            hstep.1⟩
        have hout : ∀ m, stripNLGo m skip (c :: rest) =
            List.replicate m ' ' ++ c :: stripNLGo 0 false rest := by
          intro m
          simp [stripNLGo, hsp, hnl]
        constructor
        · rcases Nat.le_one_iff_eq_zero_or_eq_one.mp hn with h | h <;> subst h
          · simpa [hout 0] using hcons
          · rw [hout 1, List.replicate_one, List.singleton_append,
              List.chain'_cons']
            refine ⟨?_, hcons⟩
            intro y hy
            cases hy
            exact ⟨fun _ => ⟨hsp, hnl⟩, fun h => absurd h (by decide)⟩
        · intro hsk
          rw [hskip hsk, hout 0, List.replicate_zero, List.nil_append]
          intro y hy
          cases hy
          exact hsp

end DocSvc

namespace DocSvc

theorem headNotWs_of_isPrefix {p l : List Char} (hl : headNotWs l)
    (hp : p <+: l) (hne : p ≠ []) : headNotWs p := by
  cases p with
  | nil => exact absurd rfl hne
  | cons c rest =>
    cases l with
    | nil => cases hl
    | cons d rest2 =>
      rcases hp with ⟨t, ht⟩
      cases ht
      exact hl

theorem jsTrim_sublist (l : List Char) : (jsTrim l).Sublist l :=
  ((rtrimWs_isPrefix (ltrimWs l)).sublist).trans (List.dropWhile_sublist _)

theorem dropWhile_head?_not (p : Char → Bool) :
    ∀ l : List Char, ∀ c ∈ (List.dropWhile p l).head?, p c = false := by
  intro l
  induction l with
  | nil => simp
  | cons a rest ih =>
    by_cases hp : p a = true
    · simpa [List.dropWhile_cons, hp] using ih
    · intro c hc
      simp only [List.dropWhile_cons, hp, Bool.false_eq_true, if_false,
        List.head?_cons, Option.mem_def, Option.some.injEq] at hc
      subst hc
      simpa using hp

theorem headNotWs_jsTrim {l : List Char} (h : jsTrim l ≠ []) :
    headNotWs (jsTrim l) := by
  have hlne : ltrimWs l ≠ [] := by
    intro he
    apply h
    simp [jsTrim, he, rtrimWs]
  have hhead : headNotWs (ltrimWs l) := by
    cases hl : ltrimWs l with
    | nil => exact absurd hl hlne
    | cons c rest =>
      refine headNotWs_of_head? (l := c :: rest) rfl ?_
      have := dropWhile_head?_not isJsWs l
      rw [show List.dropWhile isJsWs l = c :: rest from hl] at this
      exact this c rfl
  exact headNotWs_of_isPrefix hhead (rtrimWs_isPrefix _) h

theorem lastNotWs_jsTrim {l : List Char} (h : jsTrim l ≠ []) :
    lastNotWs (jsTrim l) := by
  have hrev : (jsTrim l).reverse = (ltrimWs l).reverse.dropWhile isJsWs := by
    simp [jsTrim, rtrimWs]
  have hne : (ltrimWs l).reverse.dropWhile isJsWs ≠ [] := by
    intro he
    apply h
    have : (jsTrim l).reverse = [] := by rw [hrev, he]
    simpa using this
  rw [lastNotWs, hrev]
  cases hl : (ltrimWs l).reverse.dropWhile isJsWs with
  | nil => exact absurd hl hne
  | cons c rest =>
    refine headNotWs_of_head? (l := c :: rest) rfl ?_
    have := dropWhile_head?_not isJsWs (ltrimWs l).reverse
    rw [hl] at this
    exact this c rfl

theorem chain_jsTrim {R : Char → Char → Prop} {l : List Char}
    (h : List.Chain' R l) : List.Chain' R (jsTrim l) :=
  List.Chain'.prefix (h.suffix (List.dropWhile_suffix _)) (rtrimWs_isPrefix _)

/-- The shape facts of `cleanText` output used by the overlap proof. -/
theorem cleanText_good (text : List Char) (h : cleanText text ≠ []) :
    headNotWs (cleanText text) ∧ lastNotWs (cleanText text) ∧
    wsOnly (cleanText text) ∧ List.Chain' rule2 (cleanText text) ∧
    List.Chain' rule3 (cleanText text) := by
  have hws : wsOnly (stripNL (collapseHW (collapseNL (normNL text)))) := by
    have h1 := wsOnly_collapseHWGo (collapseNL (normNL text)) false
    -- stripNL emits only spaces, newlines, and characters of its input
    suffices hgen : ∀ (l : List Char) (n : ℕ) (skip : Bool), wsOnly l →
        wsOnly (stripNLGo n skip l) by
      exact hgen _ 0 false h1
    intro l
    induction l with
    | nil =>
      intro n skip _ x hx
      simp only [stripNLGo] at hx
      rw [List.eq_of_mem_replicate hx]
      intro
      exact Or.inl rfl
    | cons c rest ih =>
      intro n skip hl x hx
      have hl' : wsOnly rest := fun y hy => hl y (List.mem_cons_of_mem _ hy)
      by_cases hsp : c = ' '
      · subst hsp
        cases skip <;> simp only [stripNLGo, if_pos rfl, if_true,
          Bool.false_eq_true, if_false] at hx
        · exact ih (n + 1) false hl' x hx
        · exact ih 0 true hl' x hx
      · by_cases hnl : c = '\n'
        · subst hnl
          simp only [stripNLGo, if_neg hsp, if_pos rfl] at hx
          rcases List.mem_cons.mp hx with rfl | hx
          · intro
            exact Or.inr rfl
          · exact ih 0 true hl' x hx
        · simp only [stripNLGo, if_neg hsp, if_neg hnl] at hx
          rcases List.mem_append.mp hx with hx | hx
          · rw [List.eq_of_mem_replicate hx]
            intro
            exact Or.inl rfl
          · rcases List.mem_cons.mp hx with rfl | hx
            · exact hl x (List.mem_cons_self _ _)
            · exact ih 0 false hl' x hx
  have hchB : List.Chain' ruleB
      (stripNL (collapseHW (collapseNL (normNL text)))) :=
    (stripNLGo_chain (collapseHW (collapseNL (normNL text))) 0 false
      (chain_rule1_collapseHWGo _ false) (by omega) (by omega) (by simp)).1
  refine ⟨headNotWs_jsTrim h, lastNotWs_jsTrim h,
    wsOnly_of_sublist (jsTrim_sublist _) hws,
    (chain_jsTrim hchB).imp fun a b hab => hab.1,
    (chain_jsTrim hchB).imp fun a b hab => hab.2⟩

end DocSvc

namespace DocSvc

theorem headNotWs_of_ne {acc : List Char} (hne : acc ≠ [])
    (h : ∀ a ∈ acc.head?, isJsWs a = false) : headNotWs acc := by
  cases acc with
  | nil => exact absurd rfl hne
  | cons a rest => exact h a rfl

theorem chain2_push (acc : List Char) (c : Char) (nl : ℕ) (hnl : nl ≤ 1)
    (hcha : List.Chain' rule2 acc.reverse)
    (hj0 : nl = 0 → ∀ a ∈ acc.head?, rule2 a c)
    (hj1 : nl = 1 → ∀ a ∈ acc.head?, a ≠ ' ') :
    List.Chain' rule2 ((acc.reverse ++ List.replicate nl '\n') ++ [c]) := by
  interval_cases nl
  · rw [List.replicate_zero, List.append_nil, List.chain'_append]
    refine ⟨hcha, List.chain'_singleton c, ?_⟩
    intro x hx y hy
    rw [List.getLast?_reverse] at hx
    rw [List.head?_cons, Option.mem_def, Option.some.injEq] at hy
    subst hy
    exact hj0 rfl x hx
  · rw [List.replicate_one, List.chain'_append]
    refine ⟨?_, List.chain'_singleton c, ?_⟩
    · rw [List.chain'_append]
      refine ⟨hcha, List.chain'_singleton _, ?_⟩
      intro x hx y hy
      rw [List.getLast?_reverse] at hx
      rw [List.head?_cons, Option.mem_def, Option.some.injEq] at hy
      subst hy
      intro hxsp
      exact absurd hxsp (hj1 rfl x hx)
    · intro x hx y hy
      rw [List.getLast?_concat, Option.mem_def, Option.some.injEq] at hx
      rw [List.head?_cons, Option.mem_def, Option.some.injEq] at hy
      subst hx
      subst hy
      intro h
      exact absurd h (by decide)

theorem splitParasGo_good :
    ∀ (cs : List Char) (acc : List Char) (nl : ℕ),
      wsOnly cs → List.Chain' rule2 cs → List.Chain' rule3 cs →
      acc ≠ [] →
      headNotWs acc.reverse → wsOnly acc.reverse →
      List.Chain' rule2 acc.reverse →
      (nl = 0 → ∀ a ∈ acc.head?, ∀ c ∈ cs.head?, rule2 a c) →
      (1 ≤ nl → ∀ a ∈ acc.head?, isJsWs a = false) →
      (1 ≤ nl → ∀ c ∈ cs.head?, c ≠ ' ') →
      (∀ a ∈ acc.head?, a ≠ '\n') →
      (match cs.getLast? with
        | some c => isJsWs c = false
        | none => nl = 0 ∧ ∀ a ∈ acc.head?, isJsWs a = false) →
      ∀ p ∈ splitParasGo acc nl cs, ParaGood p := by
  intro cs
  induction cs with
  | nil =>
    intro acc nl _ _ _ hne hrev hwsa hcha _ _ _ _ hlast p hp
    simp only [List.getLast?_nil] at hlast
    obtain ⟨hnl0, hhead⟩ := hlast
    subst hnl0
    simp only [splitParasGo] at hp
    rw [if_neg (by omega : ¬(2 ≤ 0))] at hp
    simp only [List.replicate_zero, List.nil_append, List.mem_singleton] at hp
    subst hp
    refine ⟨hrev, ?_, hwsa, hcha⟩
    rw [lastNotWs, List.reverse_reverse]
    exact headNotWs_of_ne hne hhead
  | cons c cs2 ih =>
    intro acc nl hws hch2 hch3 hne hrev hwsa hcha h6 h7 h8 h10 hlast
    have hws2 : wsOnly cs2 := fun y hy => hws y (List.mem_cons_of_mem _ hy)
    have hch22 : List.Chain' rule2 cs2 := (List.chain'_cons'.mp hch2).2
    have hch32 : List.Chain' rule3 cs2 := (List.chain'_cons'.mp hch3).2
    have hcmem : c ∈ c :: cs2 := List.mem_cons_self _ _
    have hlast2 : ∀ (h2 : cs2 ≠ []),
        (match cs2.getLast? with
          | some x => isJsWs x = false
          | none => (0 : ℕ) = 0 ∧ ∀ a ∈ [c].head?, isJsWs a = false) := by
      intro h2
      cases cs2 with
      | nil => exact absurd rfl h2
      | cons d rest =>
        rw [List.getLast?_cons_cons] at hlast
        simpa using hlast
    by_cases hnl : c = '\n'
    · subst hnl
      intro p hp
      simp only [splitParasGo, if_pos rfl] at hp
      refine ih acc (nl + 1) hws2 hch22 hch32 hne hrev hwsa hcha
        (fun h => absurd h (by omega)) ?_ ?_ h10 ?_ p hp
      · intro _ a ha
        rcases Nat.eq_zero_or_pos nl with h0 | h1
        · have hr2 : rule2 a '\n' := h6 h0 a ha '\n' rfl
          have hnsp : a ≠ ' ' := fun he => (hr2 he).2 rfl
          exact wsOnly_resolve hwsa
            (List.mem_reverse.mpr (List.mem_of_mem_head? ha)) hnsp (h10 a ha)
        · exact h7 h1 a ha
      · intro _ y hy
        exact (List.chain'_cons'.mp hch3).1 y hy rfl
      · cases cs2 with
        | nil =>
          simp only [List.getLast?_singleton] at hlast
          simp [isJsWs] at hlast
        | cons d rest =>
          rw [List.getLast?_cons_cons] at hlast
          simpa using hlast
    · by_cases h2nl : 2 ≤ nl
      · intro p hp
        simp only [splitParasGo, if_neg hnl, if_pos h2nl] at hp
        have hcsp : c ≠ ' ' := h8 (by omega) c rfl
        have hcws : isJsWs c = false := wsOnly_resolve hws hcmem hcsp hnl
        rcases List.mem_cons.mp hp with rfl | hp
        · refine ⟨hrev, ?_, hwsa, hcha⟩
          rw [lastNotWs, List.reverse_reverse]
          exact headNotWs_of_ne hne (h7 (by omega))
        · refine ih [c] 0 hws2 hch22 hch32 (by simp) (by simp; exact hcws)
            ?_ (by rw [List.reverse_singleton]; exact List.chain'_singleton c) ?_ (by omega)
            (by omega) ?_ ?_ p hp
          · intro y hy
            rw [List.reverse_singleton, List.mem_singleton] at hy
            rw [hy]
            exact hws c hcmem
          · intro _ a ha y hy
            cases ha
            exact (List.chain'_cons'.mp hch2).1 y hy
          · intro a ha
            cases ha
            exact hnl
          · cases hcs2 : cs2 with
            | nil => exact ⟨rfl, fun a ha => by cases ha; exact hcws⟩
            | cons d rest =>
              have := hlast2 (by rw [hcs2]; simp)
              rw [hcs2] at this
              exact this
      · intro p hp
        simp only [splitParasGo, if_neg hnl, if_neg h2nl] at hp
        have hnle1 : nl ≤ 1 := by omega
        have hrevp : (c :: (List.replicate nl '\n' ++ acc)).reverse =
            (acc.reverse ++ List.replicate nl '\n') ++ [c] := by
          rw [List.reverse_cons, List.reverse_append, List.reverse_replicate]
        have hheadp : (c :: (List.replicate nl '\n' ++ acc)).head? = some c :=
          rfl
        refine ih (c :: (List.replicate nl '\n' ++ acc)) 0 hws2 hch22 hch32
          (by simp) ?_ ?_ ?_ ?_ (by omega) (by omega) ?_ ?_ p hp
        · rw [hrevp]
          exact headNotWs_append (headNotWs_append hrev)
        · rw [hrevp]
          refine wsOnly_append (wsOnly_append hwsa ?_) ?_
          · intro y hy _
            rw [List.eq_of_mem_replicate hy]
            exact Or.inr rfl
          · intro y hy
            rw [List.mem_singleton] at hy
            rw [hy]
            exact hws c hcmem
        · rw [hrevp]
          refine chain2_push acc c nl hnle1 hcha ?_ ?_
          · intro h0 a ha
            exact h6 h0 a ha c rfl
          · intro h1 a ha
            exact nws_ne_space (h7 (by omega) a ha)
        · intro _ a ha y hy
          rw [hheadp, Option.mem_def, Option.some.injEq] at ha
          subst ha
          exact (List.chain'_cons'.mp hch2).1 y hy
        · intro a ha
          rw [hheadp, Option.mem_def, Option.some.injEq] at ha
          subst ha
          exact hnl
        · cases hcs2 : cs2 with
          | nil =>
            refine ⟨rfl, ?_⟩
            intro a ha
            rw [hheadp, Option.mem_def, Option.some.injEq] at ha
            subst ha
            have : cs2.getLast? = none := by rw [hcs2]; rfl
            have hl : (c :: cs2).getLast? = some c := by
              rw [hcs2]
              rfl
            rw [hl] at hlast
            exact hlast
          | cons d rest =>
            have := hlast2 (by rw [hcs2]; simp)
            rw [hcs2] at this
            exact this

end DocSvc

namespace DocSvc

/-- Every paragraph of a nonempty cleaned text is nonempty, starts and ends
with a non-whitespace character, has only spaces/newlines as whitespace, and
keeps spaces isolated and never before a newline. -/
theorem splitParas_paraGood (ct : List Char) (hne : ct ≠ [])
    (h1 : headNotWs ct) (h2 : lastNotWs ct) (h3 : wsOnly ct)
    (h4 : List.Chain' rule2 ct) (h5 : List.Chain' rule3 ct) :
    ∀ p ∈ splitParas ct, ParaGood p := by
  cases ct with
  | nil => exact absurd rfl hne
  | cons c0 rest =>
    have hc0 : isJsWs c0 = false := h1
    have hstep : splitParas (c0 :: rest) = splitParasGo [c0] 0 rest := by
      rw [splitParas, splitParasGo]
      rw [if_neg (nws_ne_nl hc0), if_neg (by omega : ¬(2 ≤ 0))]
      simp
    rw [hstep]
    refine splitParasGo_good rest [c0] 0
      (fun y hy => h3 y (List.mem_cons_of_mem _ hy))
      (List.chain'_cons'.mp h4).2 (List.chain'_cons'.mp h5).2
      (by simp) (by simp; exact hc0) ?_
      (by rw [List.reverse_singleton]; exact List.chain'_singleton c0) ?_ (by omega) (by omega)
      ?_ ?_
    · intro y hy
      rw [List.reverse_singleton, List.mem_singleton] at hy
      rw [hy]
      exact h3 c0 (List.mem_cons_self _ _)
    · intro _ a ha y hy
      cases ha
      exact (List.chain'_cons'.mp h4).1 y hy
    · intro a ha
      cases ha
      exact nws_ne_nl hc0
    · cases hrest : rest with
      | nil =>
        refine ⟨rfl, ?_⟩
        intro a ha
        cases ha
        exact hc0
      | cons d rest2 =>
        have hlast : (c0 :: rest).getLast? = rest.getLast? := by
          rw [hrest, List.getLast?_cons_cons]
        have := lastNotWs_getLast? h2
        rw [hlast, hrest] at this
        cases hgl : (d :: rest2).getLast? with
        | none => simp at hgl
        | some x =>
          exact this x (by rw [hgl]; rfl)

end DocSvc

namespace DocSvc

def TokenGood (w : List Char) : Prop := headNotWs w ∧ ' ' ∉ w ∧ wsOnly w

theorem chain2_of_no_space {w : List Char} (h : ' ' ∉ w) :
    List.Chain' rule2 w := by
  induction w with
  | nil => simp
  | cons c rest ih =>
    rw [List.chain'_cons']
    refine ⟨?_, ih fun hc => h (List.mem_cons_of_mem _ hc)⟩
    intro y _ hcs
    exact absurd (hcs ▸ List.mem_cons_self c rest) h

theorem splitOnSpaceGo_ne_nil : ∀ (cs cur : List Char),
    splitOnSpaceGo cur cs ≠ [] := by
  intro cs
  induction cs with
  | nil => intro cur; simp [splitOnSpaceGo]
  | cons c rest ih =>
    intro cur
    by_cases hc : c = ' '
    · subst hc
      simp [splitOnSpaceGo]
    · simp only [splitOnSpaceGo, if_neg hc]
      exact ih _

theorem splitOnSpaceGo_good :
    ∀ (cs cur : List Char),
      wsOnly cs → List.Chain' rule2 cs →
      (cur = [] → ∀ c ∈ cs.head?, isJsWs c = false) →
      (cur ≠ [] → headNotWs cur.reverse) →
      ' ' ∉ cur → wsOnly cur.reverse →
      (∀ x ∈ cs.getLast?, x ≠ ' ') →
      (cs = [] → cur ≠ []) →
      ∀ w ∈ splitOnSpaceGo cur cs, TokenGood w := by
  intro cs
  induction cs with
  | nil =>
    intro cur _ _ _ hcur hsp hwc _ hlastB w hw
    simp only [splitOnSpaceGo, List.mem_singleton] at hw
    subst hw
    exact ⟨hcur (hlastB rfl), fun hm => hsp (List.mem_reverse.mp hm), hwc⟩
  | cons c cs2 ih =>
    intro cur hws hch2 hcur0 hcur hsp hwc hlastA hlastB w hw
    have hws2 : wsOnly cs2 := fun y hy => hws y (List.mem_cons_of_mem _ hy)
    have hch22 : List.Chain' rule2 cs2 := (List.chain'_cons'.mp hch2).2
    have hlastA2 : ∀ x ∈ cs2.getLast?, x ≠ ' ' := by
      intro x hx
      refine hlastA x ?_
      cases cs2 with
      | nil => cases hx
      | cons d rest => rw [List.getLast?_cons_cons]; exact hx
    by_cases hc : c = ' '
    · subst hc
      simp only [splitOnSpaceGo, if_pos rfl] at hw
      have hcne : cur ≠ [] := by
        intro he
        have := hcur0 he ' ' rfl
        simp [isJsWs] at this
      rcases List.mem_cons.mp hw with rfl | hw
      · exact ⟨hcur hcne, fun hm => hsp (List.mem_reverse.mp hm), hwc⟩
      · refine ih [] hws2 hch22 ?_ (fun h => absurd rfl h) (by simp)
          (by simp [wsOnly]) hlastA2 ?_ w hw
        · intro _ y hy
          have hr := (List.chain'_cons'.mp hch2).1 y hy rfl
          exact wsOnly_resolve hws2 (List.mem_of_mem_head? hy) hr.1 hr.2
        · intro h2
          exfalso
          subst h2
          exact hlastA ' ' rfl rfl
    · simp only [splitOnSpaceGo, if_neg hc] at hw
      have hcg : isJsWs c = true → c = ' ' ∨ c = '\n' :=
        hws c (List.mem_cons_self _ _)
      refine ih (c :: cur) hws2 hch22 (fun h => by cases h) ?_ ?_ ?_
        hlastA2 (by simp) w hw
      · intro _
        rw [List.reverse_cons]
        cases hcc : cur with
        | nil =>
          simp only [List.reverse_nil, List.nil_append]
          exact hcur0 hcc c rfl
        | cons x rest =>
          have h1 : headNotWs cur.reverse := hcur (by rw [hcc]; simp)
          rw [hcc] at h1
          exact headNotWs_append h1
      · intro hm
        rcases List.mem_cons.mp hm with he | hm
        · exact hc he.symm
        · exact hsp hm
      · rw [List.reverse_cons]
        refine wsOnly_append hwc ?_
        intro y hy
        rw [List.mem_singleton] at hy
        rw [hy]
        exact hcg

theorem overlapTakeGo_append (oc : ℕ) :
    ∀ (rws acc : List (List Char)) (len : ℕ),
      ∃ pre, overlapTakeGo oc acc len rws = pre ++ acc := by
  intro rws
  induction rws with
  | nil => intro acc len; exact ⟨[], rfl⟩
  | cons w ws ih =>
    intro acc len
    by_cases hlen : len < oc
    · simp only [overlapTakeGo, if_pos hlen]
      rcases ih (w :: acc) (len + w.length + 1) with ⟨pre, hpre⟩
      exact ⟨pre ++ [w], by rw [hpre]; simp⟩
    · simp only [overlapTakeGo, if_neg hlen]
      exact ⟨[], rfl⟩

theorem overlapTakeGo_subset (oc : ℕ) :
    ∀ (rws acc : List (List Char)) (len : ℕ),
      ∀ w ∈ overlapTakeGo oc acc len rws, w ∈ acc ∨ w ∈ rws := by
  intro rws
  induction rws with
  | nil => intro acc len w hw; exact Or.inl hw
  | cons x ws ih =>
    intro acc len w hw
    by_cases hlen : len < oc
    · simp only [overlapTakeGo, if_pos hlen] at hw
      rcases ih (x :: acc) (len + x.length + 1) w hw with h | h
      · rcases List.mem_cons.mp h with rfl | h
        · exact Or.inr (List.mem_cons_self _ _)
        · exact Or.inl h
      · exact Or.inr (List.mem_cons_of_mem _ h)
    · simp only [overlapTakeGo, if_neg hlen] at hw
      exact Or.inl hw

theorem overlapTake_ne_nil {oc : ℕ} (hoc : 0 < oc)
    {words : List (List Char)} (hne : words ≠ []) :
    overlapTake oc words ≠ [] := by
  rw [overlapTake]
  cases hrev : words.reverse with
  | nil => exact absurd (by simpa using hrev) hne
  | cons w rws =>
    simp only [overlapTakeGo, if_pos hoc]
    rcases overlapTakeGo_append oc rws [w] (0 + w.length + 1) with ⟨pre, hpre⟩
    rw [hpre]
    simp

theorem overlapTake_subset {oc : ℕ} {words : List (List Char)} :
    ∀ w ∈ overlapTake oc words, w ∈ words := by
  intro w hw
  rcases overlapTakeGo_subset oc words.reverse [] 0 w hw with h | h
  · cases h
  · exact List.mem_reverse.mp h

theorem joinSpace_good :
    ∀ (ws : List (List Char)), ws ≠ [] →
      (∀ w ∈ ws, TokenGood w) →
      headNotWs (joinSpace ws) ∧
      (∀ c ∈ (joinSpace ws).getLast?, c ≠ ' ') ∧
      wsOnly (joinSpace ws) ∧ List.Chain' rule2 (joinSpace ws) := by
  intro ws
  induction ws with
  | nil => intro h; exact absurd rfl h
  | cons w ws ih =>
    intro _ hgood
    have hw : TokenGood w := hgood w (List.mem_cons_self _ _)
    cases ws with
    | nil =>
      refine ⟨hw.1, ?_, hw.2.2, chain2_of_no_space hw.2.1⟩
      intro c hc
      intro he
      subst he
      exact hw.2.1 (List.mem_of_mem_getLast? hc)
    | cons w2 ws2 =>
      have hrest := ih (by simp) (fun x hx => hgood x (List.mem_cons_of_mem _ hx))
      have hJ : joinSpace (w :: w2 :: ws2) = w ++ ' ' :: joinSpace (w2 :: ws2) :=
        rfl
      have hJne : joinSpace (w2 :: ws2) ≠ [] := hrest.1.ne_nil
      refine ⟨?_, ?_, ?_, ?_⟩
      · rw [hJ]
        exact headNotWs_append hw.1
      · rw [hJ]
        have h1 : (w ++ ' ' :: joinSpace (w2 :: ws2)).getLast? =
            (' ' :: joinSpace (w2 :: ws2)).getLast? :=
          List.getLast?_append_of_ne_nil w (by simp)
        rw [h1]
        have h2 : (' ' :: joinSpace (w2 :: ws2)).getLast? =
            (joinSpace (w2 :: ws2)).getLast? := by
          cases hJ2 : joinSpace (w2 :: ws2) with
          | nil => exact absurd hJ2 hJne
          | cons a rest => rw [List.getLast?_cons_cons]
        rw [h2]
        exact hrest.2.1
      · rw [hJ]
        refine wsOnly_append hw.2.2 ?_
        intro y hy
        rcases List.mem_cons.mp hy with rfl | hy
        · intro
          exact Or.inl rfl
        · exact hrest.2.2.1 y hy
      · rw [hJ, List.chain'_append]
        refine ⟨chain2_of_no_space hw.2.1, ?_, ?_⟩
        · rw [List.chain'_cons']
          refine ⟨?_, hrest.2.2.2⟩
          intro y hy _
          have hyh : headNotWs (joinSpace (w2 :: ws2)) := hrest.1
          cases hJ2 : joinSpace (w2 :: ws2) with
          | nil => exact absurd hJ2 hJne
          | cons a rest =>
            rw [hJ2] at hy hyh
            cases hy
            exact ⟨nws_ne_space hyh, nws_ne_nl hyh⟩
        · intro x hx y hy
          cases hy
          intro hxs
          subst hxs
          exact absurd (List.mem_of_mem_getLast? hx) hw.2.1

end DocSvc

namespace DocSvc

/-- The carried-overlap string of a well-shaped buffer: starts with a
non-whitespace character, does not end in a space, has only benign
whitespace and isolated spaces. -/
theorem ov_good (oc : ℕ) (hoc : 0 < oc) (buf : List Char)
    (hh : headNotWs buf) (hl : buf.getLast? = some '\n')
    (hw : wsOnly buf) (hc : List.Chain' rule2 buf) :
    headNotWs (joinSpace (overlapTake oc (splitOnSpace buf))) ∧
    (∀ c ∈ (joinSpace (overlapTake oc (splitOnSpace buf))).getLast?,
      c ≠ ' ') ∧
    wsOnly (joinSpace (overlapTake oc (splitOnSpace buf))) ∧
    List.Chain' rule2 (joinSpace (overlapTake oc (splitOnSpace buf))) := by
  have htok : ∀ w ∈ splitOnSpace buf, TokenGood w := by
    refine splitOnSpaceGo_good buf [] hw hc (fun _ => headNotWs_head? hh)
      (fun h => absurd rfl h) (by simp) (by simp [wsOnly]) ?_
      (fun hbe => absurd hbe hh.ne_nil)
    intro x hx
    rw [hl, Option.mem_def, Option.some.injEq] at hx
    subst hx
    decide
  have hwne : splitOnSpace buf ≠ [] := splitOnSpaceGo_ne_nil buf []
  exact joinSpace_good _ (overlapTake_ne_nil hoc hwne)
    (fun w hw2 => htok w (overlapTake_subset w hw2))

/-- The carried overlap survives the `.trim()` applied when the next chunk
closes: it is a prefix of the trimmed buffer. -/
theorem ov_isPrefix_jsTrim {ov t : List Char}
    (hbufh : headNotWs (ov ++ ' ' :: t)) (hth : headNotWs t) :
    ov <+: jsTrim (ov ++ ' ' :: t) := by
  rw [jsTrim_of_headNotWs hbufh]
  cases t with
  | nil => cases hth
  | cons c t2 =>
    have h1 : ov ++ ' ' :: c :: t2 = (ov ++ [' ']) ++ (c :: t2) := by simp
    rw [h1, rtrimWs_append ⟨c, List.mem_cons_self _ _, hth⟩]
    exact ⟨[' '] ++ rtrimWs (c :: t2), by simp⟩

def adjRel (a b : TChunk × List Char) : Prop := a.2 <+: b.1.content

def BufShape (buf : List Char) : Prop :=
  headNotWs buf ∧ buf.getLast? = some '\n' ∧ wsOnly buf ∧
    List.Chain' rule2 buf

def TWInv (st : TWState) : Prop :=
  List.Chain' adjRel st.chunks ∧
  (st.buf = [] ∨ BufShape st.buf) ∧
  (∀ h : st.chunks ≠ [],
    ∃ t, st.buf = (st.chunks.getLast h).2 ++ ' ' :: t ∧ headNotWs t)

/-- A `ParaGood` paragraph followed by the two-newline separator has the
buffer shape. -/
theorem bufShape_para {para : List Char} (hp : ParaGood para) :
    BufShape (para ++ ['\n', '\n']) := by
  obtain ⟨hph, hpl, hpw, hpc⟩ := hp
  refine ⟨headNotWs_append hph, ?_, ?_, ?_⟩
  · rw [show para ++ ['\n', '\n'] = (para ++ ['\n']) ++ ['\n'] by simp,
      List.getLast?_concat]
  · refine wsOnly_append hpw ?_
    intro y hy _
    rcases List.mem_cons.mp hy with rfl | hy
    · exact Or.inr rfl
    · rw [List.mem_singleton] at hy
      rw [hy]
      exact Or.inr rfl
  · rw [List.chain'_append]
    refine ⟨hpc, ?_, ?_⟩
    · rw [List.chain'_cons']
      exact ⟨fun y hy h => absurd h (by decide), List.chain'_singleton _⟩
    · intro x hx y _ hxsp
      exact absurd hxsp (nws_ne_space (lastNotWs_getLast? hpl x hx))

/-- Appending one more paragraph and separator preserves the buffer
shape. -/
theorem bufShape_append {buf para : List Char} (hb : BufShape buf)
    (hp : ParaGood para) : BufShape (buf ++ (para ++ ['\n', '\n'])) := by
  obtain ⟨hbh, hbl, hbw, hbc⟩ := hb
  have hpp := bufShape_para hp
  refine ⟨headNotWs_append hbh, ?_, wsOnly_append hbw hpp.2.2.1, ?_⟩
  · rw [List.getLast?_append_of_ne_nil _ (by simp)]
    exact hpp.2.1
  · rw [List.chain'_append]
    refine ⟨hbc, hpp.2.2.2, ?_⟩
    intro x hx y _ hxsp
    rw [hbl, Option.mem_def, Option.some.injEq] at hx
    subst hx
    exact absurd hxsp (by decide)

/-- The buffer seeded from a carried overlap, a paragraph and the separator
has the buffer shape. -/
theorem bufShape_seed {ov para : List Char}
    (hov1 : headNotWs ov) (hov2 : ∀ c ∈ ov.getLast?, c ≠ ' ')
    (hov3 : wsOnly ov) (hov4 : List.Chain' rule2 ov)
    (hp : ParaGood para) :
    BufShape (ov ++ ' ' :: (para ++ ['\n', '\n'])) := by
  have hpp := bufShape_para hp
  refine ⟨headNotWs_append hov1, ?_, ?_, ?_⟩
  · rw [List.getLast?_append_of_ne_nil _ (by simp)]
    rw [show ' ' :: (para ++ ['\n', '\n']) = [' '] ++ (para ++ ['\n', '\n'])
      from rfl]
    rw [List.getLast?_append_of_ne_nil _ (by simp)]
    exact hpp.2.1
  · refine wsOnly_append hov3 ?_
    intro y hy
    rcases List.mem_cons.mp hy with rfl | hy
    · intro
      exact Or.inl rfl
    · exact hpp.2.2.1 y hy
  · rw [List.chain'_append]
    refine ⟨hov4, ?_, ?_⟩
    · rw [List.chain'_cons']
      refine ⟨?_, hpp.2.2.2⟩
      intro y hy _
      have hyH : (para ++ ['\n', '\n']).head? = some y → isJsWs y = false := by
        intro h
        cases para with
        | nil => cases hp.1
        | cons a rest =>
          rw [List.cons_append, List.head?_cons, Option.some.injEq] at h
          subst h
          exact hp.1
      exact ⟨nws_ne_space (hyH hy), nws_ne_nl (hyH hy)⟩
    · intro x hx y _ hxsp
      exact absurd hxsp (hov2 x hx)

end DocSvc

namespace DocSvc

theorem twStep_inv (tc oc : ℕ) (hoc : 0 < oc) (st : TWState)
    (para : List Char) (hpara : ParaGood para) (hinv : TWInv st) :
    TWInv (twStep tc oc st para) := by
  obtain ⟨hadj, hbuf, hseed⟩ := hinv
  by_cases hcond : tc < st.buf.length + para.length ∧ 0 < st.buf.length
  · have hbne : st.buf ≠ [] := by
      intro h
      rw [h] at hcond
      simp at hcond
    have hbs : BufShape st.buf := by
      rcases hbuf with h | h
      · exact absurd h hbne
      · exact h
    have hov := ov_good oc hoc st.buf hbs.1 hbs.2.1 hbs.2.2.1 hbs.2.2.2
    have hstep : twStep tc oc st para =
        { chunks := st.chunks ++
            [({ content := jsTrim st.buf, index := st.idx,
                tokenCount := estimateTokens st.buf },
              joinSpace (overlapTake oc (splitOnSpace st.buf)))],
          buf := (joinSpace (overlapTake oc (splitOnSpace st.buf)) ++ [' '])
            ++ para ++ ['\n', '\n'],
          idx := st.idx + 1 } := by
      simp only [twStep, if_pos hcond, if_pos hoc]
    rw [hstep]
    have hbufeq :
        (joinSpace (overlapTake oc (splitOnSpace st.buf)) ++ [' '])
          ++ para ++ ['\n', '\n'] =
        joinSpace (overlapTake oc (splitOnSpace st.buf)) ++
          ' ' :: (para ++ ['\n', '\n']) := by
      simp
    refine ⟨?_, ?_, ?_⟩
    · rw [List.chain'_append]
      refine ⟨hadj, List.chain'_singleton _, ?_⟩
      intro x hx y hy
      rw [List.head?_cons, Option.mem_def, Option.some.injEq] at hy
      subst hy
      have hne : st.chunks ≠ [] := by
        intro h
        rw [h] at hx
        cases hx
      obtain ⟨t, hdecomp, hth⟩ := hseed hne
      have hxlast : x = st.chunks.getLast hne := by
        have := List.getLast?_eq_getLast st.chunks hne
        rw [this, Option.mem_def, Option.some.injEq] at hx
        exact hx.symm
      show x.2 <+: jsTrim st.buf
      rw [hxlast, hdecomp]
      exact ov_isPrefix_jsTrim (hdecomp ▸ hbs.1) hth
    · right
      show BufShape _
      rw [hbufeq]
      exact bufShape_seed hov.1 hov.2.1 hov.2.2.1 hov.2.2.2 hpara
    · intro h
      refine ⟨para ++ ['\n', '\n'], ?_, headNotWs_append hpara.1⟩
      rw [List.getLast_append]
      exact hbufeq
  · have hstep : twStep tc oc st para =
        { st with buf := st.buf ++ para ++ ['\n', '\n'] } := by
      rw [twStep, if_neg hcond]
    rw [hstep]
    have hbufeq : st.buf ++ para ++ ['\n', '\n'] =
        st.buf ++ (para ++ ['\n', '\n']) := by simp
    refine ⟨hadj, ?_, ?_⟩
    · right
      show BufShape _
      rw [hbufeq]
      rcases hbuf with h | h
      · rw [h, List.nil_append]
        exact bufShape_para hpara
      · exact bufShape_append h hpara
    · intro h
      obtain ⟨t, hdecomp, hth⟩ := hseed h
      refine ⟨t ++ (para ++ ['\n', '\n']), ?_, headNotWs_append hth⟩
      show st.buf ++ para ++ ['\n', '\n'] = _
      rw [hbufeq, hdecomp]
      simp

end DocSvc

namespace DocSvc

theorem twFold_inv (tc oc : ℕ) (hoc : 0 < oc) :
    ∀ (paras : List (List Char)) (st : TWState),
      (∀ p ∈ paras, ParaGood p) → TWInv st →
      TWInv (paras.foldl (twStep tc oc) st) := by
  intro paras
  induction paras with
  | nil => intro st _ hinv; exact hinv
  | cons p ps ih =>
    intro st hgood hinv
    rw [List.foldl_cons]
    exact ih _ (fun q hq => hgood q (List.mem_cons_of_mem _ hq))
      (twStep_inv tc oc hoc st p (hgood p (List.mem_cons_self _ _)) hinv)

theorem jsOrNat_mul4_pos (o : Option ℕ) : 0 < jsOrNat o 50 * 4 := by
  rcases o with _ | n
  · simp [jsOrNat]
  · by_cases h : n = 0 <;> simp [jsOrNat, h]
    omega

set_option maxHeartbeats 2000000 in
theorem chunkTextTrace_chain (text : List Char) (opts : ChunkOpts) :
    List.Chain' adjRel (chunkTextTrace text opts) := by
  by_cases hct : cleanText text = []
  · have h2 : twStep (jsOrNat opts.chunkSize 500 * 4)
        (jsOrNat opts.overlap 50 * 4) ⟨[], [], 0⟩ [] =
        ⟨[], ['\n', '\n'], 0⟩ := by
      rw [twStep, if_neg ?_]
      · rfl
      · rintro ⟨_, hx⟩
        simp at hx
    have h1 : splitParas ([] : List Char) = [[]] := by decide
    have h4 : (jsTrim ['\n', '\n']).length = 0 := by decide
    have h3 : chunkTextTrace text opts = [] := by
      simp only [chunkTextTrace, hct, h1, List.foldl_cons, List.foldl_nil,
        h2, h4]
      simp
    rw [h3]
    simp
  · obtain ⟨hg1, hg2, hg3, hg4, hg5⟩ := cleanText_good text hct
    have hparas : ∀ p ∈ splitParas (cleanText text), ParaGood p :=
      splitParas_paraGood _ hct hg1 hg2 hg3 hg4 hg5
    have hfold := twFold_inv (jsOrNat opts.chunkSize 500 * 4)
      (jsOrNat opts.overlap 50 * 4) (jsOrNat_mul4_pos _)
      (splitParas (cleanText text)) ⟨[], [], 0⟩ hparas
      ⟨by simp, Or.inl rfl, fun h => absurd rfl h⟩
    obtain ⟨hadj, hbuf, hseed⟩ := hfold
    rw [chunkTextTrace]
    by_cases hfin : 0 < (jsTrim (List.foldl
        (twStep (jsOrNat opts.chunkSize 500 * 4)
          (jsOrNat opts.overlap 50 * 4)) ⟨[], [], 0⟩
        (splitParas (cleanText text))).buf).length
    · rw [if_pos hfin, List.chain'_append]
      refine ⟨hadj, List.chain'_singleton _, ?_⟩
      intro x hx y hy
      rw [List.head?_cons, Option.mem_def, Option.some.injEq] at hy
      subst hy
      have hne : (List.foldl (twStep (jsOrNat opts.chunkSize 500 * 4)
          (jsOrNat opts.overlap 50 * 4)) ⟨[], [], 0⟩
          (splitParas (cleanText text))).chunks ≠ [] := by
        intro h
        rw [h] at hx
        cases hx
      obtain ⟨t, hdecomp, hth⟩ := hseed hne
      have hbufne : (List.foldl (twStep (jsOrNat opts.chunkSize 500 * 4)
          (jsOrNat opts.overlap 50 * 4)) ⟨[], [], 0⟩
          (splitParas (cleanText text))).buf ≠ [] := by
        rw [hdecomp]
        simp
      have hbs : BufShape (List.foldl (twStep (jsOrNat opts.chunkSize 500 * 4)
          (jsOrNat opts.overlap 50 * 4)) ⟨[], [], 0⟩
          (splitParas (cleanText text))).buf := by
        rcases hbuf with h | h
        · exact absurd h hbufne
        · exact h
      have hxlast : x = (List.foldl (twStep (jsOrNat opts.chunkSize 500 * 4)
          (jsOrNat opts.overlap 50 * 4)) ⟨[], [], 0⟩
          (splitParas (cleanText text))).chunks.getLast hne := by
        have := List.getLast?_eq_getLast _ hne
        rw [this, Option.mem_def, Option.some.injEq] at hx
        exact hx.symm
      show x.2 <+: jsTrim _
      rw [hxlast, hdecomp]
      exact ov_isPrefix_jsTrim (hdecomp ▸ hbs.1) hth
    · rw [if_neg hfin]
      exact hadj

end DocSvc

set_option maxHeartbeats 2000000 in
open DocSvc in
/-- C7: for token-windowed chunking, the trailing words of chunk `i` that
were carried as overlap — whole words taken from the end of the closed
buffer until at least `overlap*4` characters are covered, as recorded in
the trace component of `chunkTextTrace` — appear verbatim at the start of
chunk `i+1`'s content.  `chunkText` is the first projection of the trace,
and the effective overlap (`options.overlap || 50`) is always positive. -/
theorem C7_overlap_carried_verbatim (text : List Char) (opts : ChunkOpts) :
    chunkText text opts = (chunkTextTrace text opts).map Prod.fst ∧
    0 < jsOrNat opts.overlap 50 * 4 ∧
    ∀ (i : ℕ) (h : i + 1 < (chunkTextTrace text opts).length),
      ((chunkTextTrace text opts).get ⟨i, by omega⟩).2 <+:
        ((chunkTextTrace text opts).get ⟨i + 1, h⟩).1.content := by
  refine ⟨rfl, jsOrNat_mul4_pos _, ?_⟩
  intro i h
  have hch := chunkTextTrace_chain text opts
  rw [List.chain'_iff_get] at hch
  exact hch i (by omega)

set_option maxHeartbeats 2000000 in
open DocSvc in
/-- C7 witness: on `"aaaa bbbb\n\ncccc dddd"` with `chunkSize 2` and
`overlap 1`, the carried overlap of chunk 0 is `"bbbb\n\n"` and it is a
prefix of chunk 1's content `"bbbb\n\n cccc dddd"`. -/
theorem C7_witness :
    ((chunkTextTrace ("aaaa bbbb\n\ncccc dddd".toList)
        { chunkSize := some 2, overlap := some 1 }).get
      ⟨0, by decide⟩).2 <+:
      ((chunkTextTrace ("aaaa bbbb\n\ncccc dddd".toList)
          { chunkSize := some 2, overlap := some 1 }).get
        ⟨1, by decide⟩).1.content :=
  (C7_overlap_carried_verbatim ("aaaa bbbb\n\ncccc dddd".toList)
    { chunkSize := some 2, overlap := some 1 }).2.2 0 (by decide)
